import Mathlib

/-!
# GeoStruct analysis engine — shallow embedding and verification

This file embeds the mesh-analysis engine of `src/utils/geometryUtils.ts`
(the `analyzeGeometry` function, file `src/unnamed/part_001` of the pack)
into Lean and proves the specification claims about it.

Embedding conventions:
* JavaScript numbers are modelled as exact rationals (`ℚ`); `Math.round`
  rounds half toward positive infinity, which is `Int.floor (q + 1/2)`.
* A JavaScript `Map` is modelled as an association list where `set` prepends
  a binding and `get` returns the most recent binding, so later `set`s
  overwrite earlier ones.  The engine never iterates over a `Map`, so this
  captures the source exactly.  The dedup key string `"x_y_z"` is modelled
  as the triple of rounded coordinates: distinct rationals stringify to
  distinct substrings, so the string key and the triple key agree.
* The TypeScript field values `-1` ("to be filled" sentinel of the
  winged-edge records) are kept literally as `-1 : ℤ`; the `createdStep`
  field declared in `types.ts` but never written by the engine is modelled
  as an `Option ℕ` that stays `none` exactly when the JS object lacks the
  property.
* Malformed input (buffer length not divisible by 3, out-of-range indices)
  is undefined behaviour per §7 of the design; the embedding totalises the
  corresponding reads with `getD` defaults and drops a trailing partial
  index group, which agrees with the source on every well-formed input.
-/

namespace GeoStruct

/-- JavaScript `Math.round`: round half toward positive infinity. -/
def jsRound (q : ℚ) : ℤ := Int.floor (q + 1 / 2)

/-- The helper `r` of geometryUtils: `Math.round(n * 100) / 100`. -/
def r (n : ℚ) : ℚ := (jsRound (n * 100) : ℚ) / 100

/-- `VertexData` of `types.ts`. -/
structure VertexData where
  id : ℕ
  x : ℚ
  y : ℚ
  z : ℚ
  incidentEdge : Option ℕ := none
  incidentHalfEdge : Option ℕ := none
  deriving DecidableEq

/-- `FaceData` of `types.ts`. -/
structure FaceData where
  id : ℕ
  v1 : ℕ
  v2 : ℕ
  v3 : ℕ
  incidentEdge : Option ℕ := none
  incidentHalfEdge : Option ℕ := none
  deriving DecidableEq

/-- `Vector3` of `types.ts` (used by soup triangles). -/
structure Vec3 where
  x : ℚ
  y : ℚ
  z : ℚ
  deriving DecidableEq

/-- `SoupTriangleData` of `types.ts`. -/
structure SoupTriangleData where
  id : ℕ
  v1 : Vec3
  v2 : Vec3
  v3 : Vec3
  deriving DecidableEq

/-- `HalfEdgeData` of `types.ts`. -/
structure HalfEdgeData where
  id : ℕ
  originVertex : ℕ
  targetVertex : ℕ
  face : ℕ
  twin : Option ℕ
  next : ℕ
  prev : ℕ
  deriving DecidableEq

/-- `WingedEdgeData` of `types.ts`.  `createdStep` is declared there as a
required number but the engine constructs the record without it; `none`
models the absent JS property.  The remaining `ℤ` fields use the source's
`-1` sentinel for "not filled". -/
structure WingedEdgeData where
  id : ℕ
  createdStep : Option ℕ
  startVertex : ℕ
  endVertex : ℕ
  faceLeft : ℤ
  faceRight : ℤ
  predLeft : ℤ
  succLeft : ℤ
  predRight : ℤ
  succRight : ℤ
  deriving DecidableEq

/-- `ProcessedMesh` of `types.ts`. -/
structure ProcessedMesh where
  vertices : List VertexData
  faces : List FaceData
  soupTriangles : List SoupTriangleData
  halfEdges : List HalfEdgeData
  edges : List WingedEdgeData
  deriving DecidableEq

/-- Lookup in an association list: the value of the first (most recent)
binding of the key.  Models `Map.get` under the prepend-on-`set` encoding. -/
def alookup {α β : Type} [DecidableEq α] : List (α × β) → α → Option β
  | [], _ => none
  | (k, v) :: rest, a => if k = a then some v else alookup rest a

/-- State of the Vertex Merger: the growing vertex list and the dedup map
`uniqueVertsMap` from rounded-coordinate keys to vertex ids. -/
structure MergeState where
  vertices : List VertexData
  uniqueVertsMap : List ((ℚ × ℚ × ℚ) × ℕ)
  deriving DecidableEq

/-- The rounded-coordinate dedup key read at position-buffer offset `pIdx`:
`(r positions[pIdx], r positions[pIdx+1], r positions[pIdx+2])`. -/
def posKey (positions : List ℚ) (pIdx : ℕ) : ℚ × ℚ × ℚ :=
  (r (positions.getD pIdx 0), r (positions.getD (pIdx + 1) 0),
    r (positions.getD (pIdx + 2) 0))

/-- `getOrAddVertex` of the source: return the id bound to the key if
present, otherwise allocate the next id, push the rounded vertex and bind
the key. -/
def getOrAddVertex (positions : List ℚ) (s : MergeState) (pIdx : ℕ) :
    MergeState × ℕ :=
  let key := posKey positions pIdx
  match alookup s.uniqueVertsMap key with
  | some id => (s, id)
  | none =>
      let id := s.vertices.length
      ({ vertices := s.vertices ++
            [{ id := id, x := key.1, y := key.2.1, z := key.2.2 }],
         uniqueVertsMap := (key, id) :: s.uniqueVertsMap }, id)

/-- Run `getOrAddVertex` over a list of position offsets, returning the
final state and the list of vertex ids (`processedIndices`). -/
def runMerge (positions : List ℚ) : List ℕ → MergeState → MergeState × List ℕ
  | [], s => (s, [])
  | p :: ps, s =>
      let r1 := getOrAddVertex positions s p
      let r2 := runMerge positions ps r1.1
      (r2.1, r1.2 :: r2.2)

/-- The stream of position offsets fed to `getOrAddVertex`: the raw index
buffer scaled by 3 when present, else every vertex of the position buffer. -/
def pIdxList (positions : List ℚ) : Option (List ℕ) → List ℕ
  | some rawIndices => rawIndices.map (fun i => i * 3)
  | none => (List.range (positions.length / 3)).map (fun i => i * 3)

/-- Step 1 of `analyzeGeometry`: merge vertices over the whole index stream
starting from the empty state. -/
def mergeRun (positions : List ℚ) (rawIndices : Option (List ℕ)) :
    MergeState × List ℕ :=
  runMerge positions (pIdxList positions rawIndices) ⟨[], []⟩

/-- The deduplicated index stream `processedIndices` of the source. -/
def processedIndices (positions : List ℚ) (rawIndices : Option (List ℕ)) :
    List ℕ :=
  (mergeRun positions rawIndices).2

/-- Step 2 of `analyzeGeometry`: group the index stream into faces with
consecutive ids. -/
def buildFaces : List ℕ → ℕ → List FaceData
  | a :: b :: c :: rest, i =>
      { id := i, v1 := a, v2 := b, v3 := c } :: buildFaces rest (i + 1)
  | _, _ => []

/-- The embedded position of vertex id `v` (step 3 reads `vertices[id]`). -/
def vec3At (vertices : List VertexData) (v : ℕ) : Vec3 :=
  let vd := vertices.getD v { id := 0, x := 0, y := 0, z := 0 }
  { x := vd.x, y := vd.y, z := vd.z }

/-- Step 3 of `analyzeGeometry`: the soup triangles, copying positions.
The source loops over the same index triples that formed the faces. -/
def soupOfFaces (vertices : List VertexData) (faces : List FaceData) :
    List SoupTriangleData :=
  faces.map fun f =>
    { id := f.id, v1 := vec3At vertices f.v1, v2 := vec3At vertices f.v2,
      v3 := vec3At vertices f.v3 }

/-- The intermediate `TempHalfEdge` record of the source. -/
structure TempHalfEdge where
  id : ℕ
  origin : ℕ
  target : ℕ
  face : ℕ
  next : ℕ
  prev : ℕ
  twin : Option ℕ
  deriving DecidableEq

/-- The `i`-th (local index 0, 1 or 2) temporary half-edge of a face:
id `face.id * 3 + i`, directed `vs[i] → vs[(i+1) % 3]`, with cyclic
`next`/`prev` inside the face's triple. -/
def tempHE (f : FaceData) (i : ℕ) : TempHalfEdge :=
  { id := f.id * 3 + i % 3,
    origin := [f.v1, f.v2, f.v3].getD (i % 3) 0,
    target := [f.v1, f.v2, f.v3].getD ((i + 1) % 3) 0,
    face := f.id,
    next := f.id * 3 + (i + 1) % 3,
    prev := f.id * 3 + (i + 2) % 3,
    twin := none }

/-- The three temporary half-edges of one face (step 4 inner loop). -/
def faceHalfEdges (f : FaceData) : List TempHalfEdge :=
  [tempHE f 0, tempHE f 1, tempHE f 2]

/-- All temporary half-edges, in face order (step 4). -/
def tempHalfEdgesOf (faces : List FaceData) : List TempHalfEdge :=
  faces.flatMap faceHalfEdges

/-- The `heLookup` map from ordered `(origin, target)` pairs to half-edge
ids; built with `set` in list order, so the LAST half-edge with a given
pair wins. -/
def heLookupOf (tempHalfEdges : List TempHalfEdge) : List ((ℕ × ℕ) × ℕ) :=
  tempHalfEdges.foldl (fun m he => ((he.origin, he.target), he.id) :: m) []

/-- The twin-linking pass: each half-edge's twin is the lookup of its
reversed pair, staying `none` on a miss. -/
def linkTwins (tempHalfEdges : List TempHalfEdge) : List TempHalfEdge :=
  let lk := heLookupOf tempHalfEdges
  tempHalfEdges.map fun he => { he with twin := alookup lk (he.target, he.origin) }

/-- Step 5: the final `HalfEdgeData` view of a temporary half-edge. -/
def toHalfEdgeData (he : TempHalfEdge) : HalfEdgeData :=
  { id := he.id, originVertex := he.origin, targetVertex := he.target,
    face := he.face, twin := he.twin, next := he.next, prev := he.prev }

/-- `vertices[i].incidentHalfEdge = heId` (no-op when `i` out of range,
which never happens on engine-produced ids). -/
def setVertexIncidentHE (vs : List VertexData) (i heId : ℕ) : List VertexData :=
  match vs.get? i with
  | some v => vs.set i { v with incidentHalfEdge := some heId }
  | none => vs

/-- `faces[i].incidentHalfEdge = heId`. -/
def setFaceIncidentHE (fs : List FaceData) (i heId : ℕ) : List FaceData :=
  match fs.get? i with
  | some f => fs.set i { f with incidentHalfEdge := some heId }
  | none => fs

/-- Step 5's forEach: populate vertex/face half-edge incidence references,
last writer wins. -/
def populateIncidentHE (vs : List VertexData) (fs : List FaceData)
    (halfEdges : List HalfEdgeData) : List VertexData × List FaceData :=
  halfEdges.foldl
    (fun acc he =>
      (setVertexIncidentHE acc.1 he.originVertex he.id,
       setFaceIncidentHE acc.2 he.face he.id))
    (vs, fs)

/-- `getEdgeKey` of the source: undirected edge key, smaller vertex first. -/
def edgeKey (a b : ℕ) : ℕ × ℕ := if a < b then (a, b) else (b, a)

/-- State of the winged-edge first pass: the edge list, the key-to-index
map and the half-edge-to-winged-edge map. -/
structure WEState where
  wingedEdges : List WingedEdgeData
  edgeKeyToIndex : List ((ℕ × ℕ) × ℕ)
  heToWeMap : List (ℕ × ℕ)
  deriving DecidableEq

/-- Tail of the first-pass body: record `heToWeMap[he.id] = weId` and assign
`faceLeft` when the half-edge runs `start → end`, else `faceRight`. -/
def weAssignFace (st : WEState) (weId : ℕ) (he : TempHalfEdge) : WEState :=
  let st1 := { st with heToWeMap := (he.id, weId) :: st.heToWeMap }
  match st1.wingedEdges.get? weId with
  | some we =>
      let we1 := if he.origin = we.startVertex
        then { we with faceLeft := (he.face : ℤ) }
        else { we with faceRight := (he.face : ℤ) }
      { st1 with wingedEdges := st1.wingedEdges.set weId we1 }
  | none => st1

/-- One iteration of the winged-edge first pass: create the edge record on
first sight of the undirected key (canonical orientation, `-1` sentinels),
then assign the side face. -/
def wePass1Step (st : WEState) (he : TempHalfEdge) : WEState :=
  let key := edgeKey he.origin he.target
  match alookup st.edgeKeyToIndex key with
  | some weId => weAssignFace st weId he
  | none =>
      let weId := st.wingedEdges.length
      let isCanonical := he.origin < he.target
      let newWE : WingedEdgeData :=
        { id := weId, createdStep := none,
          startVertex := if isCanonical then he.origin else he.target,
          endVertex := if isCanonical then he.target else he.origin,
          faceLeft := -1, faceRight := -1,
          predLeft := -1, succLeft := -1, predRight := -1, succRight := -1 }
      weAssignFace
        { st with wingedEdges := st.wingedEdges ++ [newWE],
                  edgeKeyToIndex := (key, weId) :: st.edgeKeyToIndex }
        weId he

/-- The complete winged-edge first pass over the temporary half-edges. -/
def wePass1 (tempHalfEdges : List TempHalfEdge) : WEState :=
  tempHalfEdges.foldl wePass1Step
    { wingedEdges := [], edgeKeyToIndex := [], heToWeMap := [] }

/-- Left half of the winged-edge second pass for one edge: look up the
`start → end` half-edge and fill `succLeft`/`predLeft` from its
`next`/`prev` through `heToWeMap`.  A missed lookup keeps the prior field
value, exactly as the source's conditional assignments do. -/
def wePass2Left (lk : List ((ℕ × ℕ) × ℕ)) (tempHalfEdges : List TempHalfEdge)
    (heToWeMap : List (ℕ × ℕ)) (we : WingedEdgeData) : WingedEdgeData :=
  match alookup lk (we.startVertex, we.endVertex) with
  | some heLeftId =>
      match tempHalfEdges.get? heLeftId with
      | some heLeft =>
          { we with
            succLeft :=
              match alookup heToWeMap heLeft.next with
              | some s => (s : ℤ)
              | none => we.succLeft,
            predLeft :=
              match alookup heToWeMap heLeft.prev with
              | some p => (p : ℤ)
              | none => we.predLeft }
      | none => we
  | none => we

/-- Right half of the winged-edge second pass: the symmetric lookup of the
`end → start` half-edge filling `succRight`/`predRight`. -/
def wePass2Right (lk : List ((ℕ × ℕ) × ℕ)) (tempHalfEdges : List TempHalfEdge)
    (heToWeMap : List (ℕ × ℕ)) (we : WingedEdgeData) : WingedEdgeData :=
  match alookup lk (we.endVertex, we.startVertex) with
  | some heRightId =>
      match tempHalfEdges.get? heRightId with
      | some heRight =>
          { we with
            succRight :=
              match alookup heToWeMap heRight.next with
              | some s => (s : ℤ)
              | none => we.succRight,
            predRight :=
              match alookup heToWeMap heRight.prev with
              | some p => (p : ℤ)
              | none => we.predRight }
      | none => we
  | none => we

/-- The winged-edge second pass for one edge; the left side runs first,
then the right side, as in the source (the left side never changes
`startVertex`/`endVertex`, which the right side's lookups read). -/
def wePass2One (lk : List ((ℕ × ℕ) × ℕ)) (tempHalfEdges : List TempHalfEdge)
    (heToWeMap : List (ℕ × ℕ)) (we : WingedEdgeData) : WingedEdgeData :=
  wePass2Right lk tempHalfEdges heToWeMap
    (wePass2Left lk tempHalfEdges heToWeMap we)

/-- `vertices[i].incidentEdge = weId`. -/
def setVertexIncidentE (vs : List VertexData) (i weId : ℕ) : List VertexData :=
  match vs.get? i with
  | some v => vs.set i { v with incidentEdge := some weId }
  | none => vs

/-- `faces[i].incidentEdge = weId`. -/
def setFaceIncidentE (fs : List FaceData) (i weId : ℕ) : List FaceData :=
  match fs.get? i with
  | some f => fs.set i { f with incidentEdge := some weId }
  | none => fs

/-- The reference updates of the second pass: endpoint vertices and the
assigned faces point back at the winged edge, last writer wins. -/
def wePass2Refs (vs : List VertexData) (fs : List FaceData)
    (wes : List WingedEdgeData) : List VertexData × List FaceData :=
  wes.foldl
    (fun acc we =>
      let vs1 := setVertexIncidentE acc.1 we.startVertex we.id
      let vs2 := setVertexIncidentE vs1 we.endVertex we.id
      let fs1 := if we.faceLeft ≠ -1
        then setFaceIncidentE acc.2 we.faceLeft.toNat we.id else acc.2
      let fs2 := if we.faceRight ≠ -1
        then setFaceIncidentE fs1 we.faceRight.toNat we.id else fs1
      (vs2, fs2))
    (vs, fs)

/-- The faces built by the engine for a given input. -/
def engineFaces (positions : List ℚ) (rawIndices : Option (List ℕ)) :
    List FaceData :=
  buildFaces (processedIndices positions rawIndices) 0

/-- The temporary half-edges built by the engine (before twin linking;
twin linking does not change the fields the later passes read). -/
def engineTempHEs (positions : List ℚ) (rawIndices : Option (List ℕ)) :
    List TempHalfEdge :=
  tempHalfEdgesOf (engineFaces positions rawIndices)

/-- The final half-edge list of the engine. -/
def engineHalfEdges (positions : List ℚ) (rawIndices : Option (List ℕ)) :
    List HalfEdgeData :=
  (linkTwins (engineTempHEs positions rawIndices)).map toHalfEdgeData

/-- The winged-edge first-pass state of the engine. -/
def engineWEState (positions : List ℚ) (rawIndices : Option (List ℕ)) :
    WEState :=
  wePass1 (engineTempHEs positions rawIndices)

/-- The final winged-edge list of the engine. -/
def engineEdges (positions : List ℚ) (rawIndices : Option (List ℕ)) :
    List WingedEdgeData :=
  (engineWEState positions rawIndices).wingedEdges.map
    (wePass2One (heLookupOf (engineTempHEs positions rawIndices))
      (engineTempHEs positions rawIndices)
      (engineWEState positions rawIndices).heToWeMap)

/-- `analyzeGeometry` of the source, assembled from the staged passes.
The input is the flat position buffer and the optional index buffer. -/
def analyzeGeometry (positions : List ℚ) (rawIndices : Option (List ℕ)) :
    ProcessedMesh :=
  let mr := mergeRun positions rawIndices
  let faces0 := engineFaces positions rawIndices
  let soupTriangles := soupOfFaces mr.1.vertices faces0
  let halfEdges := engineHalfEdges positions rawIndices
  let vf1 := populateIncidentHE mr.1.vertices faces0 halfEdges
  let st := engineWEState positions rawIndices
  let vf2 := wePass2Refs vf1.1 vf1.2 st.wingedEdges
  { vertices := vf2.1, faces := vf2.2, soupTriangles := soupTriangles,
    halfEdges := halfEdges, edges := engineEdges positions rawIndices }

/-! ## Specification-side definitions -/

/-- The dedup key recorded in a vertex record. -/
def vKey (v : VertexData) : ℚ × ℚ × ℚ := (v.x, v.y, v.z)

/-- Invariant of the Vertex Merger state: `uniqueVertsMap` and the vertex
list are inverse views of each other. -/
def mergeInv (s : MergeState) : Prop :=
  (∀ k i, alookup s.uniqueVertsMap k = some i →
      ∃ v, s.vertices.get? i = some v ∧ vKey v = k) ∧
  (∀ i v, s.vertices.get? i = some v →
      alookup s.uniqueVertsMap (vKey v) = some i)

/-- The ordered directed pair of a temporary half-edge. -/
def pairOf (he : TempHalfEdge) : ℕ × ℕ := (he.origin, he.target)

/-- The undirected key of a temporary half-edge. -/
def keyOf (he : TempHalfEdge) : ℕ × ℕ := edgeKey he.origin he.target

/-- The ordered directed pair of a final half-edge record. -/
def hePairOf (he : HalfEdgeData) : ℕ × ℕ := (he.originVertex, he.targetVertex)

/-- Invariant of the winged-edge first pass, relative to a superset `T` of
the processed half-edges: key bindings point at well-formed records;
every record is canonically oriented, has its pred/succ sentinels and
`createdStep` untouched, and any assigned side face is justified by a
half-edge of `T` running in the matching direction. -/
def pass1Inv (T : List TempHalfEdge) (st : WEState) : Prop :=
  (∀ k i, alookup st.edgeKeyToIndex k = some i →
      ∃ we, st.wingedEdges.get? i = some we ∧
        edgeKey we.startVertex we.endVertex = k) ∧
  ∀ we ∈ st.wingedEdges,
    we.createdStep = none ∧
    we.startVertex ≤ we.endVertex ∧
    we.predLeft = -1 ∧ we.succLeft = -1 ∧ we.predRight = -1 ∧
    we.succRight = -1 ∧
    (we.faceLeft ≠ -1 → ∃ he ∈ T, he.origin = we.startVertex ∧
        he.target = we.endVertex ∧ (he.face : ℤ) = we.faceLeft) ∧
    (we.faceRight ≠ -1 → ∃ he ∈ T, he.origin = we.endVertex ∧
        he.target = we.startVertex ∧ (he.face : ℤ) = we.faceRight)

/-! ## Concrete test inputs -/

/-- A single triangle: positions of `(0,0,0)`, `(1,0,0)`, `(0,1,0)`. -/
def triPos : List ℚ := [0, 0, 0, 1, 0, 0, 0, 1, 0]

/-- Index buffer of the single triangle. -/
def triIdx : List ℕ := [0, 1, 2]

/-- Two triangles sharing the edge `{1, 2}`. -/
def quadPos : List ℚ := [0, 0, 0, 1, 0, 0, 0, 1, 0, 1, 1, 0]

/-- Index buffer of the two shared-edge triangles: faces `(0,1,2)`, `(1,3,2)`. -/
def quadIdx : List ℕ := [0, 1, 2, 1, 3, 2]

/-- Five distinct positions for the non-manifold example. -/
def nmPos : List ℚ := [0, 0, 0, 1, 0, 0, 2, 0, 0, 3, 0, 0, 4, 0, 0]

/-- A non-manifold index buffer: the directed pair `0→1` occurs in two faces
and `1→0` in a third. -/
def nmIdx : List ℕ := [0, 1, 2, 0, 1, 3, 1, 0, 4]

/-- Two distinct positions for the degenerate-face example. -/
def degPos : List ℚ := [0, 0, 0, 1, 0, 0]

/-- A degenerate face `(0, 0, 1)` with a repeated vertex id. -/
def degIdx : List ℕ := [0, 0, 1]

/-- Three distinct positions for the doubled degenerate example. -/
def deg2Pos : List ℚ := [0, 0, 0, 1, 0, 0, 2, 0, 0]

/-- Two degenerate faces both producing the self-loop pair `0→0`. -/
def deg2Idx : List ℕ := [0, 0, 1, 0, 0, 2]

/-- An unindexed buffer whose first and third vertices coincide. -/
def dupPos : List ℚ := [0, 0, 0, 1, 0, 0, 0, 0, 0]

/-- The first half-edge of the single triangle, as the engine produces it. -/
def triHE0 : HalfEdgeData := ⟨0, 0, 1, 0, none, 1, 2⟩

/-- The second half-edge of the shared-edge mesh: `1 → 2` with twin `5`. -/
def quadHE1 : HalfEdgeData := ⟨1, 1, 2, 0, some 5, 2, 0⟩

/-- The first winged edge of the single triangle: boundary edge `{0, 1}`. -/
def triWE0 : WingedEdgeData := ⟨0, none, 0, 1, 0, -1, 2, 1, -1, -1⟩

/-- The self-loop half-edge `0 → 0` of the single degenerate face; its twin
is itself. -/
def degHE0 : HalfEdgeData := ⟨0, 0, 0, 0, some 0, 1, 2⟩

/-!
## Theorems

`Rat.add`, `Rat.mul`, `Rat.inv` and `Rat.sub` are shipped `irreducible`;
witness and counterexample evaluations on concrete rational inputs need them
unfolded for `decide`, which the kernel accepts regardless of reducibility.
-/

attribute [local semireducible] Rat.add Rat.mul Rat.inv Rat.sub

set_option maxRecDepth 100000

/-! ### Association-list lemmas -/

theorem alookup_mem {α β : Type} [DecidableEq α] (l : List (α × β)) (a : α)
    (b : β) (h : alookup l a = some b) : (a, b) ∈ l := by
  induction l with
  | nil => simp [alookup] at h
  | cons kv rest ih =>
      obtain ⟨k, v⟩ := kv
      simp only [alookup] at h
      split at h
      · next heq =>
          cases h
          subst heq
          exact List.mem_cons_self _ _
      · next hne =>
          exact List.mem_cons_of_mem _ (ih h)

theorem alookup_eq_none_iff {α β : Type} [DecidableEq α] (l : List (α × β))
    (a : α) : alookup l a = none ↔ ∀ b, (a, b) ∉ l := by
  induction l with
  | nil => simp [alookup]
  | cons kv rest ih =>
      obtain ⟨k, v⟩ := kv
      simp only [alookup]
      split
      · next heq =>
          subst heq
          constructor
          · intro h
            exact absurd h (by simp)
          · intro h
            exact absurd (List.mem_cons_self _ _) (h v)
      · next hne =>
          rw [ih]
          constructor
          · intro h b hb
            rcases List.mem_cons.1 hb with hb | hb
            · exact hne (congrArg Prod.fst hb).symm
            · exact h b hb
          · intro h b hb
            exact h b (List.mem_cons_of_mem _ hb)

theorem alookup_isSome_of_mem {α β : Type} [DecidableEq α]
    (l : List (α × β)) (a : α) (b : β) (h : (a, b) ∈ l) :
    ∃ c, alookup l a = some c := by
  cases hc : alookup l a with
  | some c => exact ⟨c, rfl⟩
  | none => exact absurd h ((alookup_eq_none_iff l a).1 hc b)

theorem foldl_prepend {α β : Type} (f : α → β) (l : List α) :
    ∀ init : List β,
      l.foldl (fun m x => f x :: m) init = (l.map f).reverse ++ init := by
  induction l with
  | nil => intro init; rfl
  | cons x rest ih =>
      intro init
      simp only [List.foldl_cons, List.map_cons, List.reverse_cons, ih,
        List.append_assoc, List.singleton_append]

theorem heLookupOf_eq (t : List TempHalfEdge) :
    heLookupOf t =
      (t.map fun he => ((he.origin, he.target), he.id)).reverse ++ [] :=
  foldl_prepend _ t []

theorem heLookup_some (t : List TempHalfEdge) (p : ℕ × ℕ) (i : ℕ)
    (h : alookup (heLookupOf t) p = some i) :
    ∃ he ∈ t, (he.origin, he.target) = p ∧ he.id = i := by
  rw [heLookupOf_eq] at h
  have hmem := alookup_mem _ _ _ h
  rw [List.append_nil, List.mem_reverse, List.mem_map] at hmem
  obtain ⟨he, hhe, heq⟩ := hmem
  refine ⟨he, hhe, ?_, ?_⟩
  · exact congrArg Prod.fst heq
  · exact congrArg Prod.snd heq

theorem heLookup_none (t : List TempHalfEdge) (p : ℕ × ℕ)
    (h : alookup (heLookupOf t) p = none) :
    ∀ he ∈ t, (he.origin, he.target) ≠ p := by
  intro he hhe hp
  rw [heLookupOf_eq, List.append_nil] at h
  have := (alookup_eq_none_iff _ _).1 h he.id
  exact this (by rw [List.mem_reverse, List.mem_map]; exact ⟨he, hhe, by rw [hp]⟩)

theorem heLookup_isSome (t : List TempHalfEdge) (he : TempHalfEdge)
    (hm : he ∈ t) :
    ∃ i, alookup (heLookupOf t) (he.origin, he.target) = some i := by
  cases hc : alookup (heLookupOf t) (he.origin, he.target) with
  | some i => exact ⟨i, rfl⟩
  | none => exact absurd rfl (heLookup_none t _ hc he hm)

theorem heLookup_of_nodup (t : List TempHalfEdge)
    (hnd : (t.map fun he => (he.origin, he.target)).Nodup)
    (he : TempHalfEdge) (hm : he ∈ t) :
    alookup (heLookupOf t) (he.origin, he.target) = some he.id := by
  obtain ⟨i, hi⟩ := heLookup_isSome t he hm
  obtain ⟨he2, hm2, hp2, hid2⟩ := heLookup_some t _ _ hi
  have : he2 = he := by
    have hinj := List.inj_on_of_nodup_map hnd
    exact hinj hm2 hm hp2
  rw [hi, ← hid2, this]

/-! ### Face and half-edge indexing structure -/

theorem buildFaces_length : ∀ (l : List ℕ) (i : ℕ),
    (buildFaces l i).length = l.length / 3
  | [], _ => rfl
  | [_], _ => by
      simp only [buildFaces, List.length_nil, List.length_cons]
  | [_, _], _ => by
      simp only [buildFaces, List.length_nil, List.length_cons]
  | a :: b :: c :: rest, i => by
      simp only [buildFaces, List.length_cons, buildFaces_length rest (i + 1)]
      omega

theorem buildFaces_get?_eq : ∀ (l : List ℕ) (i j : ℕ), 3 * j + 2 < l.length →
    (buildFaces l i).get? j =
      some { id := i + j, v1 := l.getD (3 * j) 0, v2 := l.getD (3 * j + 1) 0,
             v3 := l.getD (3 * j + 2) 0 }
  | [], _, _, h => by simp at h
  | [_], _, _, h => by simp at h
  | [_, _], _, _, h => by simp at h
  | a :: b :: c :: rest, i, 0, _ => by simp [buildFaces]
  | a :: b :: c :: rest, i, j + 1, h => by
      have hlen : 3 * j + 2 < rest.length := by
        simp only [List.length_cons] at h; omega
      have ih := buildFaces_get?_eq rest (i + 1) j hlen
      have e0 : 3 * (j + 1) = 3 * j + 1 + 1 + 1 := by omega
      have e1 : 3 * (j + 1) + 1 = 3 * j + 1 + 1 + 1 + 1 := by omega
      have e2 : 3 * (j + 1) + 2 = 3 * j + 2 + 1 + 1 + 1 := by omega
      have eid : i + (j + 1) = i + 1 + j := by omega
      simp only [buildFaces, List.get?_cons_succ, ih, e0, e1, e2, eid,
        List.getD_cons_succ]

theorem get?_lt_length {α : Type} (l : List α) (n : ℕ) (a : α)
    (h : l.get? n = some a) : n < l.length := by
  by_contra hn
  rw [List.get?_eq_none.2 (by omega)] at h
  exact Option.noConfusion h

theorem buildFaces_id (l : List ℕ) (i j : ℕ) (f : FaceData)
    (h : (buildFaces l i).get? j = some f) : f.id = i + j := by
  have hlt := get?_lt_length _ _ _ h
  rw [buildFaces_length] at hlt
  rw [buildFaces_get?_eq l i j (by omega)] at h
  cases h
  rfl

theorem tempHalfEdgesOf_length : ∀ fs : List FaceData,
    (tempHalfEdgesOf fs).length = 3 * fs.length
  | [] => rfl
  | f :: rest => by
      simp only [tempHalfEdgesOf, List.flatMap_cons, List.length_append,
        List.length_cons]
      have ih := tempHalfEdgesOf_length rest
      simp only [tempHalfEdgesOf] at ih
      simp only [faceHalfEdges, List.length_cons, List.length_nil, ih]
      omega

theorem tempHalfEdgesOf_get? : ∀ (fs : List FaceData) (k : ℕ),
    (tempHalfEdgesOf fs).get? k =
      (fs.get? (k / 3)).map (fun f => tempHE f (k % 3))
  | [], k => by simp [tempHalfEdgesOf]
  | f :: rest, k => by
      by_cases hk : k < 3
      · interval_cases k <;> rfl
      · have h3 : 3 ≤ k := by omega
        have ih := tempHalfEdgesOf_get? rest (k - 3)
        have hdiv : k / 3 = (k - 3) / 3 + 1 := by omega
        have hmod : k % 3 = (k - 3) % 3 := by omega
        calc (tempHalfEdgesOf (f :: rest)).get? k
            = (tempHalfEdgesOf rest).get? (k - 3) := by
              simp only [tempHalfEdgesOf, List.flatMap_cons]
              rw [List.get?_append_right (by simpa [faceHalfEdges] using h3)]
              simp [faceHalfEdges]
          _ = (rest.get? ((k - 3) / 3)).map (fun f => tempHE f ((k - 3) % 3)) := ih
          _ = ((f :: rest).get? (k / 3)).map (fun f => tempHE f (k % 3)) := by
              rw [hdiv, hmod, List.get?_cons_succ]

/-! ### Vertex Merger invariants -/

theorem getOrAddVertex_spec (positions : List ℚ) (s : MergeState) (p : ℕ)
    (hs : mergeInv s) :
    mergeInv (getOrAddVertex positions s p).1 ∧
    (∀ i v, s.vertices.get? i = some v →
        (getOrAddVertex positions s p).1.vertices.get? i = some v) ∧
    ∃ v, (getOrAddVertex positions s p).1.vertices.get?
          (getOrAddVertex positions s p).2 = some v ∧
        vKey v = posKey positions p := by
  obtain ⟨h1, h2⟩ := hs
  cases hc : alookup s.uniqueVertsMap (posKey positions p) with
  | some id =>
      simp only [getOrAddVertex, hc]
      exact ⟨⟨h1, h2⟩, fun i v h => h, h1 _ _ hc⟩
  | none =>
      simp only [getOrAddVertex, hc]
      set k := posKey positions p with hk
      set vnew : VertexData :=
        { id := s.vertices.length, x := k.1, y := k.2.1, z := k.2.2 } with hvnew
      have hget_new : (s.vertices ++ [vnew]).get? s.vertices.length = some vnew :=
        List.get?_concat_length _ _
      have hkey_new : vKey vnew = k := rfl
      have hext : ∀ i v, s.vertices.get? i = some v →
          (s.vertices ++ [vnew]).get? i = some v := by
        intro i v h
        rw [List.get?_append (get?_lt_length _ _ _ h)]
        exact h
      refine ⟨⟨?_, ?_⟩, hext, vnew, hget_new, hkey_new⟩
      · intro k' i hki
        simp only [alookup] at hki
        split at hki
        · next heq =>
            cases hki
            exact ⟨vnew, heq ▸ hget_new, heq ▸ hkey_new⟩
        · next hne =>
            obtain ⟨v, hv, hkv⟩ := h1 _ _ hki
            exact ⟨v, hext _ _ hv, hkv⟩
      · intro i v hv
        have hi : i < s.vertices.length + 1 := by
          have := get?_lt_length _ _ _ hv
          simpa using this
        rcases Nat.lt_or_ge i s.vertices.length with hlt | hge
        · rw [List.get?_append hlt] at hv
          have hold := h2 _ _ hv
          have hne : k ≠ vKey v := by
            intro hkeq
            rw [← hkeq] at hold
            rw [hold] at hc
            exact Option.noConfusion hc
          simp only [alookup, if_neg hne]
          exact hold
        · have hieq : i = s.vertices.length := by omega
          subst hieq
          rw [hget_new] at hv
          cases hv
          simp [alookup, hkey_new]

theorem runMerge_spec (positions : List ℚ) :
    ∀ (ps : List ℕ) (s : MergeState), mergeInv s →
      mergeInv (runMerge positions ps s).1 ∧
      (∀ i v, s.vertices.get? i = some v →
          (runMerge positions ps s).1.vertices.get? i = some v) ∧
      (runMerge positions ps s).2.length = ps.length ∧
      ∀ n, n < ps.length →
        ∃ v, (runMerge positions ps s).1.vertices.get?
              ((runMerge positions ps s).2.getD n 0) = some v ∧
            vKey v = posKey positions (ps.getD n 0)
  | [], s, hs => ⟨hs, fun _ _ h => h, rfl, fun n hn => absurd hn (by simp)⟩
  | p :: ps, s, hs => by
      obtain ⟨hs1, hext1, hv1⟩ := getOrAddVertex_spec positions s p hs
      obtain ⟨hs2, hext2, hlen2, hvals2⟩ :=
        runMerge_spec positions ps (getOrAddVertex positions s p).1 hs1
      refine ⟨?_, ?_, ?_, ?_⟩
      · simpa only [runMerge] using hs2
      · intro i v h
        simpa only [runMerge] using hext2 _ _ (hext1 _ _ h)
      · simp only [runMerge, List.length_cons, hlen2]
      · intro n hn
        cases n with
        | zero =>
            obtain ⟨v, hv, hk⟩ := hv1
            have hv2 := hext2 _ _ hv
            refine ⟨v, ?_, ?_⟩
            · simpa only [runMerge, List.getD_cons_zero] using hv2
            · simpa using hk
        | succ m =>
            have := hvals2 m (by simpa using hn)
            simpa only [runMerge, List.getD_cons_succ] using this

theorem mergeRun_spec (positions : List ℚ) (rawIndices : Option (List ℕ)) :
    mergeInv (mergeRun positions rawIndices).1 ∧
    (processedIndices positions rawIndices).length =
      (pIdxList positions rawIndices).length ∧
    ∀ n, n < (pIdxList positions rawIndices).length →
      ∃ v, (mergeRun positions rawIndices).1.vertices.get?
            ((processedIndices positions rawIndices).getD n 0) = some v ∧
          vKey v = posKey positions ((pIdxList positions rawIndices).getD n 0) := by
  have hinv : mergeInv (⟨[], []⟩ : MergeState) := by
    constructor
    · intro k i h
      simp [alookup] at h
    · intro i v h
      simp at h
  obtain ⟨h1, _, h3, h4⟩ :=
    runMerge_spec positions (pIdxList positions rawIndices) ⟨[], []⟩ hinv
  exact ⟨h1, h3, h4⟩

/-! ### Engine stage projections and half-edge structure -/

theorem analyzeGeometry_halfEdges (positions : List ℚ)
    (rawIndices : Option (List ℕ)) :
    (analyzeGeometry positions rawIndices).halfEdges =
      engineHalfEdges positions rawIndices := rfl

theorem analyzeGeometry_edges (positions : List ℚ)
    (rawIndices : Option (List ℕ)) :
    (analyzeGeometry positions rawIndices).edges =
      engineEdges positions rawIndices := rfl

theorem engineFaces_id (positions : List ℚ) (rawIndices : Option (List ℕ))
    (j : ℕ) (f : FaceData)
    (h : (engineFaces positions rawIndices).get? j = some f) : f.id = j := by
  have := buildFaces_id (processedIndices positions rawIndices) 0 j f h
  simpa using this

theorem engineTempHEs_fields (positions : List ℚ) (rawIndices : Option (List ℕ))
    (k : ℕ) (he : TempHalfEdge)
    (h : (engineTempHEs positions rawIndices).get? k = some he) :
    he.id = k ∧ he.face = k / 3 ∧
    he.next = 3 * (k / 3) + (k % 3 + 1) % 3 ∧
    he.prev = 3 * (k / 3) + (k % 3 + 2) % 3 := by
  unfold engineTempHEs at h
  rw [tempHalfEdgesOf_get?] at h
  cases hf : (engineFaces positions rawIndices).get? (k / 3) with
  | none =>
      rw [hf] at h
      exact absurd h (by simp)
  | some f =>
      rw [hf] at h
      simp only [Option.map_some'] at h
      cases h
      have hid := engineFaces_id positions rawIndices _ _ hf
      have hmod : k % 3 % 3 = k % 3 := by omega
      refine ⟨?_, ?_, ?_, ?_⟩
      · simp only [tempHE, hid, hmod]
        omega
      · simp only [tempHE, hid]
      · simp only [tempHE, hid]
        omega
      · simp only [tempHE, hid]
        omega

theorem engineTempHEs_id_eq_index (positions : List ℚ)
    (rawIndices : Option (List ℕ)) (k : ℕ) (he : TempHalfEdge)
    (h : (engineTempHEs positions rawIndices).get? k = some he) : he.id = k :=
  (engineTempHEs_fields positions rawIndices k he h).1

theorem engineHalfEdges_get? (positions : List ℚ) (rawIndices : Option (List ℕ))
    (k : ℕ) :
    (engineHalfEdges positions rawIndices).get? k =
      ((engineTempHEs positions rawIndices).get? k).map
        (fun he => toHalfEdgeData { he with
          twin := alookup (heLookupOf (engineTempHEs positions rawIndices))
            (he.target, he.origin) }) := by
  unfold engineHalfEdges linkTwins
  rw [List.map_map, List.get?_map]
  rfl

theorem engineHalfEdges_pairs (positions : List ℚ)
    (rawIndices : Option (List ℕ)) :
    (engineHalfEdges positions rawIndices).map hePairOf =
      (engineTempHEs positions rawIndices).map pairOf := by
  unfold engineHalfEdges linkTwins
  rw [List.map_map, List.map_map]
  rfl

/-! ### Twin linking (C2, C10) -/

theorem engineTempHEs_pairs_nodup_of (positions : List ℚ)
    (rawIndices : Option (List ℕ))
    (hnd : ((analyzeGeometry positions rawIndices).halfEdges.map hePairOf).Nodup) :
    ((engineTempHEs positions rawIndices).map
      fun he => (he.origin, he.target)).Nodup := by
  rw [analyzeGeometry_halfEdges, engineHalfEdges_pairs] at hnd
  exact hnd

theorem engineHalfEdges_mem_elim (positions : List ℚ)
    (rawIndices : Option (List ℕ)) (he : HalfEdgeData)
    (hm : he ∈ engineHalfEdges positions rawIndices) :
    ∃ (k : ℕ) (ht : TempHalfEdge),
      (engineTempHEs positions rawIndices).get? k = some ht ∧
      he = toHalfEdgeData { ht with
        twin := alookup (heLookupOf (engineTempHEs positions rawIndices))
          (ht.target, ht.origin) } := by
  obtain ⟨k, hk⟩ := List.get?_of_mem hm
  rw [engineHalfEdges_get? positions rawIndices k] at hk
  cases ht0 : (engineTempHEs positions rawIndices).get? k with
  | none =>
      rw [ht0] at hk
      exact absurd hk (by simp)
  | some ht =>
      rw [ht0] at hk
      simp only [Option.map_some'] at hk
      exact ⟨k, ht, ht0, (Option.some.inj hk).symm⟩

/-- **C2** (amended): for every input in which no two half-edges carry the
same directed `(origin, target)` pair, the twin relation of the output is
mutual: whenever `he.twin = some tw`, the half-edge at index `tw` exists
and its twin is `he.id`. -/
theorem c2_twin_symmetry (positions : List ℚ) (rawIndices : Option (List ℕ))
    (hnd : ((analyzeGeometry positions rawIndices).halfEdges.map hePairOf).Nodup)
    (he : HalfEdgeData)
    (hm : he ∈ (analyzeGeometry positions rawIndices).halfEdges)
    (tw : ℕ) (htw : he.twin = some tw) :
    ∃ he2, (analyzeGeometry positions rawIndices).halfEdges.get? tw = some he2 ∧
      he2.twin = some he.id := by
  rw [analyzeGeometry_halfEdges] at hm ⊢
  have hnd' := engineTempHEs_pairs_nodup_of positions rawIndices hnd
  obtain ⟨k, ht, hk, hhe⟩ := engineHalfEdges_mem_elim positions rawIndices he hm
  have htwin : alookup (heLookupOf (engineTempHEs positions rawIndices))
      (ht.target, ht.origin) = some tw := by
    rw [hhe] at htw
    exact htw
  obtain ⟨ht2, hm2, hp2, hid2⟩ := heLookup_some _ _ _ htwin
  obtain ⟨k2, hk2⟩ := List.get?_of_mem hm2
  have hk2id := engineTempHEs_id_eq_index positions rawIndices k2 ht2 hk2
  have hk2tw : k2 = tw := by rw [← hk2id, hid2]
  subst hk2tw
  refine ⟨toHalfEdgeData { ht2 with
      twin := alookup (heLookupOf (engineTempHEs positions rawIndices))
        (ht2.target, ht2.origin) }, ?_, ?_⟩
  · rw [engineHalfEdges_get? positions rawIndices k2, hk2]
    rfl
  · have hpair : (ht2.target, ht2.origin) = (ht.origin, ht.target) := by
      have h1 : ht2.origin = ht.target := congrArg Prod.fst hp2
      have h2 : ht2.target = ht.origin := congrArg Prod.snd hp2
      rw [h1, h2]
    have hmem_ht : ht ∈ engineTempHEs positions rawIndices := List.get?_mem hk
    have hlk := heLookup_of_nodup _ hnd' ht hmem_ht
    show alookup (heLookupOf (engineTempHEs positions rawIndices))
        (ht2.target, ht2.origin) = some he.id
    rw [hpair, hlk, hhe]
    rfl

/-- The stored `heLookup` binding of a pair is the LAST half-edge in list
order that carries it: `set` overwrites, so the lookup result is the
greatest-index carrier of the pair. -/
theorem alookup_heLookup_last (t : List TempHalfEdge) (p : ℕ × ℕ) (i : ℕ)
    (h : alookup (heLookupOf t) p = some i) :
    ∃ k he, t.get? k = some he ∧ (he.origin, he.target) = p ∧ he.id = i ∧
      ∀ k' he', t.get? k' = some he' → (he'.origin, he'.target) = p →
        k' ≤ k := by
  induction t using List.reverseRecOn generalizing i with
  | nil => simp [heLookupOf, alookup] at h
  | append_singleton t' he ih =>
      rw [heLookupOf_eq, List.append_nil, List.map_append,
        List.reverse_append] at h
      simp only [List.map_cons, List.map_nil, List.reverse_cons,
        List.reverse_nil, List.nil_append, List.singleton_append] at h
      simp only [alookup] at h
      split at h
      · next heq =>
          cases h
          refine ⟨t'.length, he, List.get?_concat_length _ _, heq, rfl, ?_⟩
          intro k' he' hk' _
          have hlt := get?_lt_length _ _ _ hk'
          simp only [List.length_append, List.length_singleton] at hlt
          omega
      · next hne =>
          have h2 : alookup (heLookupOf t') p = some i := by
            rw [heLookupOf_eq, List.append_nil]
            exact h
          obtain ⟨k, he0, hk, hp0, hid, hmax⟩ := ih i h2
          have hklt := get?_lt_length _ _ _ hk
          refine ⟨k, he0, ?_, hp0, hid, ?_⟩
          · rw [List.get?_append hklt]
            exact hk
          · intro k' he' hk' hp'
            have hlt' := get?_lt_length _ _ _ hk'
            simp only [List.length_append, List.length_singleton] at hlt'
            rcases Nat.lt_or_ge k' t'.length with hc | hc
            · refine hmax k' he' ?_ hp'
              rw [List.get?_append hc] at hk'
              exact hk'
            · have hk'eq : k' = t'.length := by omega
              subst hk'eq
              rw [List.get?_concat_length] at hk'
              cases hk'
              exact absurd hp' hne

/-- **C10** (amended): a degenerate self-loop half-edge (origin = target)
always receives a twin — never `none` — namely the id of the LAST
half-edge in the arena carrying the same ordered pair; consequently it is
a self-twin (`twin = its own id`) exactly when no half-edge at a greater
index carries that pair. -/
theorem c10_self_twin (positions : List ℚ) (rawIndices : Option (List ℕ))
    (k : ℕ) (he : HalfEdgeData)
    (hget : (analyzeGeometry positions rawIndices).halfEdges.get? k = some he)
    (hdeg : he.originVertex = he.targetVertex) :
    ∃ t he2,
      he.twin = some t ∧
      (analyzeGeometry positions rawIndices).halfEdges.get? t = some he2 ∧
      hePairOf he2 = hePairOf he ∧
      (∀ j he3,
        (analyzeGeometry positions rawIndices).halfEdges.get? j = some he3 →
        hePairOf he3 = hePairOf he → j ≤ t) ∧
      (he.twin = some he.id ↔
        ∀ j he3,
          (analyzeGeometry positions rawIndices).halfEdges.get? j = some he3 →
          hePairOf he3 = hePairOf he → j ≤ k) := by
  rw [analyzeGeometry_halfEdges] at hget ⊢
  rw [engineHalfEdges_get?] at hget
  cases hT : (engineTempHEs positions rawIndices).get? k with
  | none =>
      rw [hT] at hget
      exact absurd hget (by simp)
  | some ht =>
      rw [hT] at hget
      simp only [Option.map_some'] at hget
      have hhe := Option.some.inj hget
      have hdeg' : ht.origin = ht.target := by
        rw [← hhe] at hdeg
        exact hdeg
      have hidk : ht.id = k :=
        engineTempHEs_id_eq_index positions rawIndices k ht hT
      have hmemt : ht ∈ engineTempHEs positions rawIndices := List.get?_mem hT
      obtain ⟨i, hi⟩ := heLookup_isSome _ ht hmemt
      have hswap : (ht.target, ht.origin) = (ht.origin, ht.target) := by
        rw [hdeg']
      have htwin : he.twin = some i := by
        rw [← hhe]
        show alookup (heLookupOf (engineTempHEs positions rawIndices))
            (ht.target, ht.origin) = some i
        rw [hswap]
        exact hi
      obtain ⟨kL, htL, hkL, hpL, hidL, hmax⟩ := alookup_heLookup_last _ _ _ hi
      have hkLidx : htL.id = kL :=
        engineTempHEs_id_eq_index positions rawIndices kL htL hkL
      have hikL : i = kL := by
        rw [← hidL, hkLidx]
      subst hikL
      have hpairhe : hePairOf he = (ht.origin, ht.target) := by
        rw [← hhe]
        rfl
      have hget2 : (engineHalfEdges positions rawIndices).get? i =
          some (toHalfEdgeData { htL with
            twin := alookup (heLookupOf (engineTempHEs positions rawIndices))
              (htL.target, htL.origin) }) := by
        rw [engineHalfEdges_get?, hkL]
        rfl
      have hpair2 : hePairOf (toHalfEdgeData { htL with
          twin := alookup (heLookupOf (engineTempHEs positions rawIndices))
            (htL.target, htL.origin) }) = hePairOf he := by
        rw [hpairhe]
        exact hpL
      have hmaxHE : ∀ j he3,
          (engineHalfEdges positions rawIndices).get? j = some he3 →
          hePairOf he3 = hePairOf he → j ≤ i := by
        intro j he3 hj hp3
        rw [engineHalfEdges_get?] at hj
        cases hT3 : (engineTempHEs positions rawIndices).get? j with
        | none =>
            rw [hT3] at hj
            exact absurd hj (by simp)
        | some ht3 =>
            rw [hT3] at hj
            simp only [Option.map_some'] at hj
            have hhe3 := Option.some.inj hj
            refine hmax j ht3 hT3 ?_
            have hpp3 : hePairOf he3 = (ht3.origin, ht3.target) := by
              rw [← hhe3]
              rfl
            rw [← hpp3, hp3, hpairhe]
      refine ⟨i, _, htwin, hget2, hpair2, hmaxHE, ?_⟩
      have hheid : he.id = k := by
        rw [← hhe]
        exact hidk
      rw [htwin, hheid]
      constructor
      · intro heqq
        have hkk : i = k := Option.some.inj heqq
        intro j he3 hj hp3
        rw [← hkk]
        exact hmaxHE j he3 hj hp3
      · intro hall
        have h1 : i ≤ k := hall i _ hget2 hpair2
        have h2 : k ≤ i := by
          refine hmax k ht hT ?_
          rfl
        have hik : i = k := Nat.le_antisymm h1 h2
        rw [hik]

/-! ### Winged-edge first pass invariants (C4, C6, C7, C8) -/

theorem edgeKey_cases (a b p q : ℕ) (h : edgeKey a b = (p, q)) :
    (a = p ∧ b = q) ∨ (a = q ∧ b = p) := by
  unfold edgeKey at h
  split at h
  · left
    exact ⟨congrArg Prod.fst h, congrArg Prod.snd h⟩
  · right
    exact ⟨congrArg Prod.snd h, congrArg Prod.fst h⟩

theorem edgeKey_of_le (a b : ℕ) (h : a ≤ b) : edgeKey a b = (a, b) := by
  unfold edgeKey
  split
  · rfl
  · next hlt =>
      have : a = b := by omega
      rw [this]

theorem edgeKey_canonical (o t : ℕ) :
    edgeKey (if o < t then o else t) (if o < t then t else o) = edgeKey o t := by
  unfold edgeKey
  split
  · simp
  · next h =>
      by_cases he : o = t
      · subst he
        simp
      · have : t < o := by omega
        simp [this, if_neg h]

theorem intCast_face_ne_neg_one (n : ℕ) : (n : ℤ) ≠ -1 := by omega

theorem weAssignFace_inv (T : List TempHalfEdge) (st : WEState) (weId : ℕ)
    (he : TempHalfEdge) (hT : he ∈ T) (hinv : pass1Inv T st)
    (we : WingedEdgeData) (hget : st.wingedEdges.get? weId = some we)
    (hkey : edgeKey we.startVertex we.endVertex = edgeKey he.origin he.target) :
    pass1Inv T (weAssignFace st weId he) := by
  obtain ⟨hmap, hwes⟩ := hinv
  obtain ⟨c1, c2, c3, c4, c5, c6, hL, hR⟩ := hwes we (List.get?_mem hget)
  have hdir : (he.origin = we.startVertex ∧ he.target = we.endVertex) ∨
      (he.origin = we.endVertex ∧ he.target = we.startVertex) := by
    have h1 : edgeKey he.origin he.target = (we.startVertex, we.endVertex) := by
      rw [← hkey]
      exact edgeKey_of_le _ _ c2
    rcases edgeKey_cases _ _ _ _ h1 with ⟨ha, hb⟩ | ⟨ha, hb⟩
    · exact Or.inl ⟨ha, hb⟩
    · exact Or.inr ⟨ha, hb⟩
  set we1 := if he.origin = we.startVertex
    then { we with faceLeft := (he.face : ℤ) }
    else { we with faceRight := (he.face : ℤ) } with hwe1
  have heq : weAssignFace st weId he =
      { wingedEdges := st.wingedEdges.set weId we1,
        edgeKeyToIndex := st.edgeKeyToIndex,
        heToWeMap := (he.id, weId) :: st.heToWeMap } := by
    simp only [weAssignFace, hget]
  rw [heq]
  have hstart1 : we1.startVertex = we.startVertex := by
    rw [hwe1]; split <;> rfl
  have hend1 : we1.endVertex = we.endVertex := by
    rw [hwe1]; split <;> rfl
  constructor
  · intro k i hki
    obtain ⟨we0, hwe0, hkey0⟩ := hmap k i hki
    by_cases hiid : i = weId
    · subst hiid
      refine ⟨we1, ?_, ?_⟩
      · rw [List.get?_set_eq, hget]
        rfl
      · have : we0 = we := by
          rw [hget] at hwe0
          exact (Option.some.inj hwe0).symm
        subst this
        rw [hstart1, hend1, hkey0]
    · refine ⟨we0, ?_, hkey0⟩
      rw [List.get?_set_ne _ _ (fun h => hiid h.symm)]
      exact hwe0
  · intro we2 hwe2
    rcases List.mem_or_eq_of_mem_set hwe2 with hmem | heq
    · exact hwes we2 hmem
    · subst heq
      rw [hwe1]
      split
      · next hyes =>
          refine ⟨c1, c2, c3, c4, c5, c6, ?_, ?_⟩
          · intro _
            refine ⟨he, hT, hyes, ?_, rfl⟩
            rcases hdir with ⟨_, hb⟩ | ⟨ha, hb⟩
            · exact hb
            · rw [hyes] at ha
              rw [hb, ← ha]
          · exact hR
      · next hno =>
          refine ⟨c1, c2, c3, c4, c5, c6, hL, ?_⟩
          intro _
          rcases hdir with ⟨ha, _⟩ | ⟨ha, hb⟩
          · exact absurd ha hno
          · exact ⟨he, hT, ha, hb, rfl⟩

theorem wePass1Step_inv (T : List TempHalfEdge) (st : WEState)
    (he : TempHalfEdge) (hT : he ∈ T) (hinv : pass1Inv T st) :
    pass1Inv T (wePass1Step st he) := by
  cases hc : alookup st.edgeKeyToIndex (edgeKey he.origin he.target) with
  | some weId =>
      have heq : wePass1Step st he = weAssignFace st weId he := by
        simp only [wePass1Step, hc]
      rw [heq]
      obtain ⟨we, hget, hkey⟩ := hinv.1 _ _ hc
      exact weAssignFace_inv T st weId he hT hinv we hget hkey
  | none =>
      set newWE : WingedEdgeData :=
        { id := st.wingedEdges.length, createdStep := none,
          startVertex := if he.origin < he.target then he.origin else he.target,
          endVertex := if he.origin < he.target then he.target else he.origin,
          faceLeft := -1, faceRight := -1,
          predLeft := -1, succLeft := -1, predRight := -1,
          succRight := -1 } with hnew
      set st1 : WEState :=
        { st with wingedEdges := st.wingedEdges ++ [newWE],
                  edgeKeyToIndex :=
                    (edgeKey he.origin he.target, st.wingedEdges.length) ::
                      st.edgeKeyToIndex } with hst1
      have hget1 : st1.wingedEdges.get? st.wingedEdges.length = some newWE :=
        List.get?_concat_length _ _
      have hnewkey : edgeKey newWE.startVertex newWE.endVertex =
          edgeKey he.origin he.target := edgeKey_canonical _ _
      have hinv1 : pass1Inv T st1 := by
        constructor
        · intro k i hki
          rw [hst1] at hki
          simp only [alookup] at hki
          split at hki
          · next heq =>
              cases hki
              exact ⟨newWE, hget1, heq ▸ hnewkey⟩
          · next hne =>
              obtain ⟨we0, hwe0, hkey0⟩ := hinv.1 _ _ hki
              refine ⟨we0, ?_, hkey0⟩
              rw [hst1]
              show (st.wingedEdges ++ [newWE]).get? i = some we0
              rw [List.get?_append (get?_lt_length _ _ _ hwe0)]
              exact hwe0
        · intro we2 hwe2
          rw [hst1] at hwe2
          rcases List.mem_append.1 hwe2 with hmem | hmem
          · exact hinv.2 we2 hmem
          · have : we2 = newWE := by simpa using hmem
            subst this
            rw [hnew]
            refine ⟨rfl, ?_, rfl, rfl, rfl, rfl, ?_, ?_⟩
            · dsimp only
              split <;> omega
            · intro h
              exact absurd rfl h
            · intro h
              exact absurd rfl h
      have heq : wePass1Step st he =
          weAssignFace st1 st.wingedEdges.length he := by
        simp only [wePass1Step, hc]
      rw [heq]
      exact weAssignFace_inv T st1 st.wingedEdges.length he hT hinv1 newWE
        hget1 hnewkey

theorem wePass1_foldl_inv (T : List TempHalfEdge) :
    ∀ (l : List TempHalfEdge) (st : WEState), (∀ he ∈ l, he ∈ T) →
      pass1Inv T st → pass1Inv T (l.foldl wePass1Step st)
  | [], _, _, hinv => hinv
  | he :: rest, st, hsub, hinv => by
      simp only [List.foldl_cons]
      exact wePass1_foldl_inv T rest _
        (fun x hx => hsub x (List.mem_cons_of_mem _ hx))
        (wePass1Step_inv T st he (hsub he (List.mem_cons_self _ _)) hinv)

theorem engineWEState_inv (positions : List ℚ) (rawIndices : Option (List ℕ)) :
    pass1Inv (engineTempHEs positions rawIndices)
      (engineWEState positions rawIndices) := by
  unfold engineWEState wePass1
  apply wePass1_foldl_inv
  · exact fun _ hx => hx
  · constructor
    · intro k i h
      simp [alookup] at h
    · intro we hw
      simp at hw

/-! ### Winged-edge second pass preservation -/

theorem wePass2Left_preserves (lk : List ((ℕ × ℕ) × ℕ))
    (t : List TempHalfEdge) (hw : List (ℕ × ℕ)) (we : WingedEdgeData) :
    (wePass2Left lk t hw we).id = we.id ∧
    (wePass2Left lk t hw we).createdStep = we.createdStep ∧
    (wePass2Left lk t hw we).startVertex = we.startVertex ∧
    (wePass2Left lk t hw we).endVertex = we.endVertex ∧
    (wePass2Left lk t hw we).faceLeft = we.faceLeft ∧
    (wePass2Left lk t hw we).faceRight = we.faceRight ∧
    (wePass2Left lk t hw we).predRight = we.predRight ∧
    (wePass2Left lk t hw we).succRight = we.succRight := by
  unfold wePass2Left
  repeat' split
  all_goals exact ⟨rfl, rfl, rfl, rfl, rfl, rfl, rfl, rfl⟩

theorem wePass2Right_preserves (lk : List ((ℕ × ℕ) × ℕ))
    (t : List TempHalfEdge) (hw : List (ℕ × ℕ)) (we : WingedEdgeData) :
    (wePass2Right lk t hw we).id = we.id ∧
    (wePass2Right lk t hw we).createdStep = we.createdStep ∧
    (wePass2Right lk t hw we).startVertex = we.startVertex ∧
    (wePass2Right lk t hw we).endVertex = we.endVertex ∧
    (wePass2Right lk t hw we).faceLeft = we.faceLeft ∧
    (wePass2Right lk t hw we).faceRight = we.faceRight ∧
    (wePass2Right lk t hw we).predLeft = we.predLeft ∧
    (wePass2Right lk t hw we).succLeft = we.succLeft := by
  unfold wePass2Right
  repeat' split
  all_goals exact ⟨rfl, rfl, rfl, rfl, rfl, rfl, rfl, rfl⟩

theorem wePass2One_preserves (lk : List ((ℕ × ℕ) × ℕ))
    (t : List TempHalfEdge) (hw : List (ℕ × ℕ)) (we : WingedEdgeData) :
    (wePass2One lk t hw we).id = we.id ∧
    (wePass2One lk t hw we).createdStep = we.createdStep ∧
    (wePass2One lk t hw we).startVertex = we.startVertex ∧
    (wePass2One lk t hw we).endVertex = we.endVertex ∧
    (wePass2One lk t hw we).faceLeft = we.faceLeft ∧
    (wePass2One lk t hw we).faceRight = we.faceRight := by
  obtain ⟨l1, l2, l3, l4, l5, l6, _, _⟩ := wePass2Left_preserves lk t hw we
  obtain ⟨r1, r2, r3, r4, r5, r6, _, _⟩ :=
    wePass2Right_preserves lk t hw (wePass2Left lk t hw we)
  unfold wePass2One
  exact ⟨r1.trans l1, r2.trans l2, r3.trans l3, r4.trans l4, r5.trans l5,
    r6.trans l6⟩

theorem wePass2Left_none (lk : List ((ℕ × ℕ) × ℕ)) (t : List TempHalfEdge)
    (hw : List (ℕ × ℕ)) (we : WingedEdgeData)
    (h : alookup lk (we.startVertex, we.endVertex) = none) :
    wePass2Left lk t hw we = we := by
  unfold wePass2Left
  rw [h]

theorem wePass2Right_none (lk : List ((ℕ × ℕ) × ℕ)) (t : List TempHalfEdge)
    (hw : List (ℕ × ℕ)) (we : WingedEdgeData)
    (h : alookup lk (we.endVertex, we.startVertex) = none) :
    wePass2Right lk t hw we = we := by
  unfold wePass2Right
  rw [h]

theorem engineEdges_mem_elim (positions : List ℚ)
    (rawIndices : Option (List ℕ)) (we : WingedEdgeData)
    (hm : we ∈ engineEdges positions rawIndices) :
    ∃ we0 ∈ (engineWEState positions rawIndices).wingedEdges,
      we = wePass2One (heLookupOf (engineTempHEs positions rawIndices))
        (engineTempHEs positions rawIndices)
        (engineWEState positions rawIndices).heToWeMap we0 := by
  unfold engineEdges at hm
  obtain ⟨we0, hwe0, heq⟩ := List.mem_map.1 hm
  exact ⟨we0, hwe0, heq.symm⟩

/-! ### Claims C4, C6 and C8 -/

/-- **C4**: for every winged edge of the output, an assigned `faceLeft`
(not the `-1` sentinel that encodes "none") is witnessed by a half-edge
directed `startVertex → endVertex` belonging to that face, and an
assigned `faceRight` by one directed `endVertex → startVertex`. -/
theorem c4_side_faces (positions : List ℚ) (rawIndices : Option (List ℕ))
    (we : WingedEdgeData) (hm : we ∈ (analyzeGeometry positions rawIndices).edges) :
    (we.faceLeft ≠ -1 →
      ∃ he ∈ (analyzeGeometry positions rawIndices).halfEdges,
        he.originVertex = we.startVertex ∧ he.targetVertex = we.endVertex ∧
        (he.face : ℤ) = we.faceLeft) ∧
    (we.faceRight ≠ -1 →
      ∃ he ∈ (analyzeGeometry positions rawIndices).halfEdges,
        he.originVertex = we.endVertex ∧ he.targetVertex = we.startVertex ∧
        (he.face : ℤ) = we.faceRight) := by
  rw [analyzeGeometry_edges] at hm
  rw [analyzeGeometry_halfEdges]
  obtain ⟨we0, hwe0, heq⟩ := engineEdges_mem_elim positions rawIndices we hm
  obtain ⟨_, _, hs, he', hfl, hfr⟩ :=
    wePass2One_preserves (heLookupOf (engineTempHEs positions rawIndices))
      (engineTempHEs positions rawIndices)
      (engineWEState positions rawIndices).heToWeMap we0
  obtain ⟨_, _, _, _, _, _, hL, hR⟩ :=
    (engineWEState_inv positions rawIndices).2 we0 hwe0
  have hmemHE : ∀ ht : TempHalfEdge, ht ∈ engineTempHEs positions rawIndices →
      ∃ he2 ∈ engineHalfEdges positions rawIndices,
        he2.originVertex = ht.origin ∧ he2.targetVertex = ht.target ∧
        he2.face = ht.face := by
    intro ht hht
    obtain ⟨k, hk⟩ := List.get?_of_mem hht
    refine ⟨toHalfEdgeData { ht with
      twin := alookup (heLookupOf (engineTempHEs positions rawIndices))
        (ht.target, ht.origin) }, ?_, rfl, rfl, rfl⟩
    have := engineHalfEdges_get? positions rawIndices k
    rw [hk] at this
    exact List.get?_mem this
  subst heq
  constructor
  · intro hne
    rw [hfl] at hne ⊢
    obtain ⟨ht, hht, h1, h2, h3⟩ := hL hne
    obtain ⟨he2, hm2, e1, e2, e3⟩ := hmemHE ht hht
    exact ⟨he2, hm2, by rw [e1, h1, hs], by rw [e2, h2, he'], by rw [e3, h3]⟩
  · intro hne
    rw [hfr] at hne ⊢
    obtain ⟨ht, hht, h1, h2, h3⟩ := hR hne
    obtain ⟨he2, hm2, e1, e2, e3⟩ := hmemHE ht hht
    exact ⟨he2, hm2, by rw [e1, h1, he'], by rw [e2, h2, hs], by rw [e3, h3]⟩

/-- **C6** (amended): every winged edge of the output satisfies
`startVertex ≤ endVertex`; the strict canonical orientation
`startVertex < endVertex` fails exactly for self-loop edges coming from a
degenerate face, where both endpoints coincide. -/
theorem c6_canonical_le (positions : List ℚ) (rawIndices : Option (List ℕ))
    (we : WingedEdgeData)
    (hm : we ∈ (analyzeGeometry positions rawIndices).edges) :
    we.startVertex ≤ we.endVertex := by
  rw [analyzeGeometry_edges] at hm
  obtain ⟨we0, hwe0, heq⟩ := engineEdges_mem_elim positions rawIndices we hm
  obtain ⟨_, _, hs, he', _, _⟩ :=
    wePass2One_preserves (heLookupOf (engineTempHEs positions rawIndices))
      (engineTempHEs positions rawIndices)
      (engineWEState positions rawIndices).heToWeMap we0
  obtain ⟨_, hle, _⟩ := (engineWEState_inv positions rawIndices).2 we0 hwe0
  rw [heq, hs, he']
  exact hle

/-- **C8**: the `createdStep` field declared in `WingedEdgeData` is never
populated by the engine: every output winged edge carries the absent
marker (`none`) and no pass assigns it. -/
theorem c8_createdStep_absent (positions : List ℚ)
    (rawIndices : Option (List ℕ)) (we : WingedEdgeData)
    (hm : we ∈ (analyzeGeometry positions rawIndices).edges) :
    we.createdStep = none := by
  rw [analyzeGeometry_edges] at hm
  obtain ⟨we0, hwe0, heq⟩ := engineEdges_mem_elim positions rawIndices we hm
  obtain ⟨_, hcs, _⟩ :=
    wePass2One_preserves (heLookupOf (engineTempHEs positions rawIndices))
      (engineTempHEs positions rawIndices)
      (engineWEState positions rawIndices).heToWeMap we0
  obtain ⟨hnone, _⟩ := (engineWEState_inv positions rawIndices).2 we0 hwe0
  rw [heq, hcs]
  exact hnone

/-! ### Claim C7 -/

theorem edgeKey_comm (a b : ℕ) : edgeKey a b = edgeKey b a := by
  unfold edgeKey
  rcases Nat.lt_trichotomy a b with h | h | h
  · simp [h, Nat.lt_asymm h]
  · subst h
    rfl
  · simp [h, Nat.lt_asymm h]

theorem engineTempHEs_to_halfEdges (positions : List ℚ)
    (rawIndices : Option (List ℕ)) (ht : TempHalfEdge)
    (hht : ht ∈ engineTempHEs positions rawIndices) :
    ∃ he2 ∈ engineHalfEdges positions rawIndices,
      he2.originVertex = ht.origin ∧ he2.targetVertex = ht.target ∧
      he2.face = ht.face := by
  obtain ⟨k, hk⟩ := List.get?_of_mem hht
  refine ⟨toHalfEdgeData { ht with
    twin := alookup (heLookupOf (engineTempHEs positions rawIndices))
      (ht.target, ht.origin) }, ?_, rfl, rfl, rfl⟩
  have := engineHalfEdges_get? positions rawIndices k
  rw [hk] at this
  exact List.get?_mem this

/-- **C7** (amended): for every winged edge with distinct endpoints whose
undirected key is carried by exactly one half-edge (a boundary edge), the
absent side is fully unset: if the sole half-edge runs
`startVertex → endVertex` then `faceRight`, `predRight` and `succRight`
keep the `-1` sentinel, and if it runs `endVertex → startVertex` then
`faceLeft`, `predLeft` and `succLeft` do.  (For degenerate self-loop edges,
`startVertex = endVertex`, the second pass does fill the right-side
pred/succ fields, hence the distinct-endpoint hypothesis.) -/
theorem c7_boundary_none (positions : List ℚ) (rawIndices : Option (List ℕ))
    (we : WingedEdgeData)
    (hm : we ∈ (analyzeGeometry positions rawIndices).edges)
    (hne : we.startVertex ≠ we.endVertex) :
    (((analyzeGeometry positions rawIndices).halfEdges.filter
        (fun he => decide (edgeKey he.originVertex he.targetVertex =
          edgeKey we.startVertex we.endVertex))).map hePairOf =
        [(we.startVertex, we.endVertex)] →
      we.faceRight = -1 ∧ we.predRight = -1 ∧ we.succRight = -1) ∧
    (((analyzeGeometry positions rawIndices).halfEdges.filter
        (fun he => decide (edgeKey he.originVertex he.targetVertex =
          edgeKey we.startVertex we.endVertex))).map hePairOf =
        [(we.endVertex, we.startVertex)] →
      we.faceLeft = -1 ∧ we.predLeft = -1 ∧ we.succLeft = -1) := by
  rw [analyzeGeometry_edges] at hm
  rw [analyzeGeometry_halfEdges]
  obtain ⟨we0, hwe0, heq⟩ := engineEdges_mem_elim positions rawIndices we hm
  set lk := heLookupOf (engineTempHEs positions rawIndices) with hlk
  set T := engineTempHEs positions rawIndices with hT
  set hw := (engineWEState positions rawIndices).heToWeMap with hhw
  obtain ⟨_, _, hs, he', hfl, hfr⟩ := wePass2One_preserves lk T hw we0
  obtain ⟨_, _, hc3, hc4, hc5, hc6, hL, hR⟩ :=
    (engineWEState_inv positions rawIndices).2 we0 hwe0
  obtain ⟨l1, l2, l3, l4, l5, l6, l7, l8⟩ := wePass2Left_preserves lk T hw we0
  obtain ⟨r1, r2, r3, r4, r5, r6, r7, r8⟩ :=
    wePass2Right_preserves lk T hw (wePass2Left lk T hw we0)
  have hsv : we.startVertex = we0.startVertex := by rw [heq, hs]
  have hev : we.endVertex = we0.endVertex := by rw [heq, he']
  constructor
  · intro hdir
    have hnorev : ∀ ht : TempHalfEdge, ht ∈ T →
        (ht.origin, ht.target) ≠ (we.endVertex, we.startVertex) := by
      intro ht hht hpt
      obtain ⟨he2, hm2, e1, e2, _⟩ :=
        engineTempHEs_to_halfEdges positions rawIndices ht hht
      have hin : hePairOf he2 ∈
          ((engineHalfEdges positions rawIndices).filter
            (fun he => decide (edgeKey he.originVertex he.targetVertex =
              edgeKey we.startVertex we.endVertex))).map hePairOf := by
        rw [List.mem_map]
        refine ⟨he2, ?_, rfl⟩
        rw [List.mem_filter]
        refine ⟨hm2, ?_⟩
        have : (ht.origin, ht.target) = (we.endVertex, we.startVertex) := hpt
        have ho : ht.origin = we.endVertex := congrArg Prod.fst this
        have ht' : ht.target = we.startVertex := congrArg Prod.snd this
        rw [e1, e2, ho, ht']
        simp [edgeKey_comm we.endVertex we.startVertex]
      rw [hdir] at hin
      have : hePairOf he2 = (we.startVertex, we.endVertex) := by simpa using hin
      rw [hePairOf, e1, e2] at this
      have ho : ht.origin = we.startVertex := congrArg Prod.fst this
      have ho2 : ht.origin = we.endVertex := congrArg Prod.fst hpt
      exact hne (by rw [← ho, ho2])
    have hfr0 : we0.faceRight = -1 := by
      by_contra hne2
      obtain ⟨ht, hht, h1, h2, _⟩ := hR hne2
      exact hnorev ht hht (by rw [h1, h2, hsv, hev])
    have hlkrev : alookup lk (we0.endVertex, we0.startVertex) = none := by
      cases hc : alookup lk (we0.endVertex, we0.startVertex) with
      | none => rfl
      | some i =>
          obtain ⟨ht, hht, hpt, _⟩ := heLookup_some _ _ _ hc
          exact absurd (by rw [hpt, hsv, hev]) (hnorev ht hht)
    have hright : wePass2Right lk T hw (wePass2Left lk T hw we0) =
        wePass2Left lk T hw we0 := by
      apply wePass2Right_none
      rw [l3, l4]
      exact hlkrev
    refine ⟨by rw [heq, hfr]; exact hfr0, ?_, ?_⟩
    · rw [heq]
      show (wePass2Right lk T hw (wePass2Left lk T hw we0)).predRight = -1
      rw [hright, l7]
      exact hc5
    · rw [heq]
      show (wePass2Right lk T hw (wePass2Left lk T hw we0)).succRight = -1
      rw [hright, l8]
      exact hc6
  · intro hdir
    have hnofwd : ∀ ht : TempHalfEdge, ht ∈ T →
        (ht.origin, ht.target) ≠ (we.startVertex, we.endVertex) := by
      intro ht hht hpt
      obtain ⟨he2, hm2, e1, e2, _⟩ :=
        engineTempHEs_to_halfEdges positions rawIndices ht hht
      have hin : hePairOf he2 ∈
          ((engineHalfEdges positions rawIndices).filter
            (fun he => decide (edgeKey he.originVertex he.targetVertex =
              edgeKey we.startVertex we.endVertex))).map hePairOf := by
        rw [List.mem_map]
        refine ⟨he2, ?_, rfl⟩
        rw [List.mem_filter]
        refine ⟨hm2, ?_⟩
        have ho : ht.origin = we.startVertex := congrArg Prod.fst hpt
        have ht' : ht.target = we.endVertex := congrArg Prod.snd hpt
        rw [e1, e2, ho, ht']
        simp
      rw [hdir] at hin
      have : hePairOf he2 = (we.endVertex, we.startVertex) := by simpa using hin
      rw [hePairOf, e1, e2] at this
      have ho : ht.origin = we.endVertex := congrArg Prod.fst this
      have ho2 : ht.origin = we.startVertex := congrArg Prod.fst hpt
      exact hne (by rw [← ho2, ho])
    have hfl0 : we0.faceLeft = -1 := by
      by_contra hne2
      obtain ⟨ht, hht, h1, h2, _⟩ := hL hne2
      exact hnofwd ht hht (by rw [h1, h2, hsv, hev])
    have hlkfwd : alookup lk (we0.startVertex, we0.endVertex) = none := by
      cases hc : alookup lk (we0.startVertex, we0.endVertex) with
      | none => rfl
      | some i =>
          obtain ⟨ht, hht, hpt, _⟩ := heLookup_some _ _ _ hc
          exact absurd (by rw [hpt, hsv, hev]) (hnofwd ht hht)
    have hleft : wePass2Left lk T hw we0 = we0 :=
      wePass2Left_none lk T hw we0 hlkfwd
    refine ⟨by rw [heq, hfl]; exact hfl0, ?_, ?_⟩
    · rw [heq]
      show (wePass2Right lk T hw (wePass2Left lk T hw we0)).predLeft = -1
      rw [r7, hleft]
      exact hc3
    · rw [heq]
      show (wePass2Right lk T hw (wePass2Left lk T hw we0)).succLeft = -1
      rw [r8, hleft]
      exact hc4

/-! ### Claim C3 -/

theorem get?_is_some_of_lt {α : Type} (l : List α) (n : ℕ)
    (h : n < l.length) : ∃ a, l.get? n = some a := by
  cases hc : l.get? n with
  | none =>
      have := List.get?_eq_none.1 hc
      omega
  | some a => exact ⟨a, rfl⟩

theorem engineTempHEs_length_eq (positions : List ℚ)
    (rawIndices : Option (List ℕ)) :
    (engineTempHEs positions rawIndices).length =
      3 * (engineFaces positions rawIndices).length :=
  tempHalfEdgesOf_length _

theorem engineHalfEdges_length (positions : List ℚ)
    (rawIndices : Option (List ℕ)) :
    (engineHalfEdges positions rawIndices).length =
      (engineTempHEs positions rawIndices).length := by
  unfold engineHalfEdges linkTwins
  rw [List.length_map, List.length_map]

theorem engineHalfEdges_fields (positions : List ℚ)
    (rawIndices : Option (List ℕ)) (k : ℕ) (he : HalfEdgeData)
    (h : (engineHalfEdges positions rawIndices).get? k = some he) :
    he.id = k ∧ he.face = k / 3 ∧
    he.next = 3 * (k / 3) + (k % 3 + 1) % 3 ∧
    he.prev = 3 * (k / 3) + (k % 3 + 2) % 3 := by
  rw [engineHalfEdges_get?] at h
  cases hT : (engineTempHEs positions rawIndices).get? k with
  | none =>
      rw [hT] at h
      exact absurd h (by simp)
  | some ht =>
      rw [hT] at h
      simp only [Option.map_some'] at h
      have hhe := Option.some.inj h
      obtain ⟨hid, hface, hnext, hprev⟩ :=
        engineTempHEs_fields positions rawIndices k ht hT
      refine ⟨?_, ?_, ?_, ?_⟩
      · rw [← hhe]
        exact hid
      · rw [← hhe]
        exact hface
      · rw [← hhe]
        exact hnext
      · rw [← hhe]
        exact hprev

/-! ### Claim C3 arithmetic helpers and theorem -/

theorem triple_lt (i L F n : ℕ) (hiL : i < L) (hLF : L = 3 * F)
    (hn : n = 3 * (i / 3) + (i % 3 + 1) % 3) : n < L := by omega

theorem triple_lt2 (i L F n : ℕ) (hiL : i < L) (hLF : L = 3 * F)
    (hn : n = 3 * (i / 3) + (i % 3 + 2) % 3) : n < L := by omega

theorem triple_face_next (i n a b : ℕ)
    (hn : n = 3 * (i / 3) + (i % 3 + 1) % 3)
    (ha : a = n / 3) (hb : b = i / 3) : a = b := by omega

theorem triple_face_prev (i n a b : ℕ)
    (hn : n = 3 * (i / 3) + (i % 3 + 2) % 3)
    (ha : a = n / 3) (hb : b = i / 3) : a = b := by omega

theorem triple_prev_next (i n m : ℕ)
    (hn : n = 3 * (i / 3) + (i % 3 + 1) % 3)
    (hm : m = 3 * (n / 3) + (n % 3 + 2) % 3) : m = i := by omega

theorem triple_next_prev (i n m : ℕ)
    (hn : n = 3 * (i / 3) + (i % 3 + 2) % 3)
    (hm : m = 3 * (n / 3) + (n % 3 + 1) % 3) : m = i := by omega

theorem triple_next_next_next (i n m k : ℕ)
    (hn : n = 3 * (i / 3) + (i % 3 + 1) % 3)
    (hm : m = 3 * (n / 3) + (n % 3 + 1) % 3)
    (hk : k = 3 * (m / 3) + (m % 3 + 1) % 3) : k = i := by omega

/-- **C3**: every output half-edge indexes itself (`id = i`), its `next`
and `prev` point at half-edges of the same face, following `next` three
times returns to the start, and `prev` undoes `next` in either order. -/
theorem c3_next_prev_closure (positions : List ℚ)
    (rawIndices : Option (List ℕ)) (i : ℕ) (he : HalfEdgeData)
    (hget : (analyzeGeometry positions rawIndices).halfEdges.get? i = some he) :
    he.id = i ∧
    ∃ heN heP heNN,
      (analyzeGeometry positions rawIndices).halfEdges.get? he.next = some heN ∧
      (analyzeGeometry positions rawIndices).halfEdges.get? he.prev = some heP ∧
      heN.face = he.face ∧ heP.face = he.face ∧
      heN.prev = i ∧ heP.next = i ∧
      (analyzeGeometry positions rawIndices).halfEdges.get? heN.next =
        some heNN ∧
      heNN.next = i := by
  rw [analyzeGeometry_halfEdges] at hget ⊢
  obtain ⟨hid, hface, hnext, hprev⟩ :=
    engineHalfEdges_fields positions rawIndices i he hget
  have hlen := get?_lt_length _ _ _ hget
  have hLF := (engineHalfEdges_length positions rawIndices).trans
    (engineTempHEs_length_eq positions rawIndices)
  have hnextlt : he.next < (engineHalfEdges positions rawIndices).length :=
    triple_lt i _ _ he.next hlen hLF hnext
  have hprevlt : he.prev < (engineHalfEdges positions rawIndices).length :=
    triple_lt2 i _ _ he.prev hlen hLF hprev
  obtain ⟨heN, hgN⟩ := get?_is_some_of_lt _ _ hnextlt
  obtain ⟨heP, hgP⟩ := get?_is_some_of_lt _ _ hprevlt
  obtain ⟨hidN, hfaceN, hnextN, hprevN⟩ :=
    engineHalfEdges_fields positions rawIndices _ heN hgN
  obtain ⟨hidP, hfaceP, hnextP, hprevP⟩ :=
    engineHalfEdges_fields positions rawIndices _ heP hgP
  have hnnlt : heN.next < (engineHalfEdges positions rawIndices).length := by
    refine triple_lt he.next _ _ heN.next hnextlt hLF ?_
    rw [hnextN]
  obtain ⟨heNN, hgNN⟩ := get?_is_some_of_lt _ _ hnnlt
  obtain ⟨hidNN, hfaceNN, hnextNN, hprevNN⟩ :=
    engineHalfEdges_fields positions rawIndices _ heNN hgNN
  refine ⟨hid, heN, heP, heNN, hgN, hgP, ?_, ?_, ?_, ?_, hgNN, ?_⟩
  · exact triple_face_next i he.next heN.face he.face hnext hfaceN hface
  · exact triple_face_prev i he.prev heP.face he.face hprev hfaceP hface
  · exact triple_prev_next i he.next heN.prev hnext hprevN
  · exact triple_next_prev i he.prev heP.next hprev hnextP
  · exact triple_next_next_next i he.next heN.next heNN.next hnext hnextN
      hnextNN

/-! ### Claims C1 and C9 -/

/-- **C1**: the Vertex Merger maps two processed buffer positions to the
same vertex id exactly when their coordinates round to the same triple at
two decimal places. -/
theorem c1_dedup_correct (positions : List ℚ) (rawIndices : Option (List ℕ))
    (i j : ℕ) (hi : i < (processedIndices positions rawIndices).length)
    (hj : j < (processedIndices positions rawIndices).length) :
    (processedIndices positions rawIndices).getD i 0 =
        (processedIndices positions rawIndices).getD j 0 ↔
      posKey positions ((pIdxList positions rawIndices).getD i 0) =
        posKey positions ((pIdxList positions rawIndices).getD j 0) := by
  obtain ⟨⟨hm1, hm2⟩, hlen, hvals⟩ := mergeRun_spec positions rawIndices
  have hi2 : i < (pIdxList positions rawIndices).length := by
    rw [← hlen]
    exact hi
  have hj2 : j < (pIdxList positions rawIndices).length := by
    rw [← hlen]
    exact hj
  obtain ⟨vi, hvi, hki⟩ := hvals i hi2
  obtain ⟨vj, hvj, hkj⟩ := hvals j hj2
  constructor
  · intro hid
    rw [hid] at hvi
    rw [hvi] at hvj
    have : vi = vj := Option.some.inj hvj
    rw [← hki, ← hkj, this]
  · intro hkey
    have h1 := hm2 _ _ hvi
    have h2 := hm2 _ _ hvj
    rw [hki, hkey, ← hkj] at h1
    rw [h1] at h2
    exact Option.some.inj h2

/-- **C9**: the engine is deterministic: runs on equal position and index
buffers produce identical `ProcessedMesh` values.  The embedding is a pure
function of its two inputs; the only container the source uses, a JS `Map`,
is read with `get`/`has` only, so no iteration-order nondeterminism can
reach the output. -/
theorem c9_deterministic (positions1 positions2 : List ℚ)
    (rawIndices1 rawIndices2 : Option (List ℕ))
    (hp : positions1 = positions2) (hidx : rawIndices1 = rawIndices2) :
    analyzeGeometry positions1 rawIndices1 =
      analyzeGeometry positions2 rawIndices2 := by
  rw [hp, hidx]

/-! ### Winged-edge counting (C5): one edge per distinct undirected key -/

theorem alookup_none_iff {α β : Type} [DecidableEq α] (m : List (α × β))
    (k : α) : alookup m k = none ↔ k ∉ m.map Prod.fst := by
  rw [alookup_eq_none_iff]
  constructor
  · intro h hk
    obtain ⟨x, hmem, hx⟩ := List.mem_map.1 hk
    have hx2 : (k, x.2) = x := by
      rw [← hx]
    exact h x.2 (hx2 ▸ hmem)
  · intro h b hb
    exact h (List.mem_map_of_mem Prod.fst hb)

theorem weAssignFace_effects (st : WEState) (weId : ℕ) (he : TempHalfEdge) :
    (weAssignFace st weId he).edgeKeyToIndex = st.edgeKeyToIndex ∧
    (weAssignFace st weId he).wingedEdges.length = st.wingedEdges.length := by
  unfold weAssignFace
  cases hget : st.wingedEdges.get? weId with
  | some we =>
      simp only [hget]
      refine ⟨by trivial, ?_⟩
      exact List.length_set _ _ _
  | none =>
      simp only [hget]
      exact ⟨by trivial, by trivial⟩

theorem wePass1Step_keys (st : WEState) (he : TempHalfEdge) :
    ((wePass1Step st he).edgeKeyToIndex.map Prod.fst).toFinset =
      insert (keyOf he) ((st.edgeKeyToIndex.map Prod.fst).toFinset) ∧
    (wePass1Step st he).wingedEdges.length =
      (if keyOf he ∈ (st.edgeKeyToIndex.map Prod.fst).toFinset
        then st.wingedEdges.length else st.wingedEdges.length + 1) := by
  cases hc : alookup st.edgeKeyToIndex (edgeKey he.origin he.target) with
  | some weId =>
      have heq : wePass1Step st he = weAssignFace st weId he := by
        simp only [wePass1Step, hc]
      have hin : keyOf he ∈ st.edgeKeyToIndex.map Prod.fst :=
        List.mem_map_of_mem Prod.fst (alookup_mem _ _ _ hc)
      have hin2 : keyOf he ∈ (st.edgeKeyToIndex.map Prod.fst).toFinset :=
        List.mem_toFinset.2 hin
      obtain ⟨h1, h2⟩ := weAssignFace_effects st weId he
      rw [heq, h1, h2, if_pos hin2, Finset.insert_eq_self.2 hin2]
      exact ⟨by trivial, by trivial⟩
  | none =>
      set newWE : WingedEdgeData :=
        { id := st.wingedEdges.length, createdStep := none,
          startVertex := if he.origin < he.target then he.origin else he.target,
          endVertex := if he.origin < he.target then he.target else he.origin,
          faceLeft := -1, faceRight := -1,
          predLeft := -1, succLeft := -1, predRight := -1,
          succRight := -1 } with hnew
      set st1 : WEState :=
        { st with wingedEdges := st.wingedEdges ++ [newWE],
                  edgeKeyToIndex :=
                    (edgeKey he.origin he.target, st.wingedEdges.length) ::
                      st.edgeKeyToIndex } with hst1
      have heq : wePass1Step st he =
          weAssignFace st1 st.wingedEdges.length he := by
        simp only [wePass1Step, hc]
      have hnotin : keyOf he ∉ (st.edgeKeyToIndex.map Prod.fst).toFinset := by
        intro hmem
        exact (alookup_none_iff _ _).1 hc (List.mem_toFinset.1 hmem)
      obtain ⟨h1, h2⟩ := weAssignFace_effects st1 st.wingedEdges.length he
      rw [heq, h1, h2, if_neg hnotin, hst1]
      constructor
      · show ((((edgeKey he.origin he.target, st.wingedEdges.length)) ::
            st.edgeKeyToIndex).map Prod.fst).toFinset = _
        rw [List.map_cons, List.toFinset_cons]
        rfl
      · show (st.wingedEdges ++ [newWE]).length = st.wingedEdges.length + 1
        rw [List.length_append, List.length_singleton]

theorem wePass1_foldl_count :
    ∀ (l : List TempHalfEdge) (st : WEState),
      st.wingedEdges.length =
        ((st.edgeKeyToIndex.map Prod.fst).toFinset).card →
      ((l.foldl wePass1Step st).edgeKeyToIndex.map Prod.fst).toFinset =
        (st.edgeKeyToIndex.map Prod.fst).toFinset ∪ (l.map keyOf).toFinset ∧
      (l.foldl wePass1Step st).wingedEdges.length =
        ((st.edgeKeyToIndex.map Prod.fst).toFinset ∪
          (l.map keyOf).toFinset).card
  | [], st, hcard => by
      simp only [List.foldl_nil, List.map_nil, List.toFinset_nil,
        Finset.union_empty]
      exact ⟨by trivial, hcard⟩
  | he :: l, st, hcard => by
      obtain ⟨hk, hl⟩ := wePass1Step_keys st he
      have hcard1 : (wePass1Step st he).wingedEdges.length =
          (((wePass1Step st he).edgeKeyToIndex.map Prod.fst).toFinset).card := by
        rw [hk, hl]
        by_cases hmem : keyOf he ∈ (st.edgeKeyToIndex.map Prod.fst).toFinset
        · rw [if_pos hmem, Finset.insert_eq_self.2 hmem, hcard]
        · rw [if_neg hmem, Finset.card_insert_of_not_mem hmem, hcard]
      obtain ⟨ih1, ih2⟩ := wePass1_foldl_count l (wePass1Step st he) hcard1
      have hsets : ((wePass1Step st he).edgeKeyToIndex.map Prod.fst).toFinset ∪
          (l.map keyOf).toFinset =
          (st.edgeKeyToIndex.map Prod.fst).toFinset ∪
            ((he :: l).map keyOf).toFinset := by
        rw [hk, List.map_cons, List.toFinset_cons, Finset.insert_union,
          Finset.union_insert]
      constructor
      · rw [List.foldl_cons, ih1, hsets]
      · rw [List.foldl_cons, ih2, hsets]

theorem engineEdges_length (positions : List ℚ)
    (rawIndices : Option (List ℕ)) :
    (engineEdges positions rawIndices).length =
      (((engineTempHEs positions rawIndices).map keyOf).toFinset).card := by
  unfold engineEdges
  rw [List.length_map]
  have h := wePass1_foldl_count (engineTempHEs positions rawIndices)
    { wingedEdges := [], edgeKeyToIndex := [], heToWeMap := [] } (by rfl)
  have h2 := h.2
  simp only [List.map_nil, List.toFinset_nil, Finset.empty_union] at h2
  exact h2

theorem keyOf_eq_pair_cases (he : TempHalfEdge) :
    (he.origin < he.target ∧ keyOf he = (he.origin, he.target)) ∨
    (¬he.origin < he.target ∧ keyOf he = (he.target, he.origin)) := by
  unfold keyOf edgeKey
  by_cases h : he.origin < he.target
  · exact Or.inl ⟨h, if_pos h⟩
  · exact Or.inr ⟨h, if_neg h⟩

/-- The two directed pairs over one undirected key.  Each undirected key of
a loop-free half-edge carries at most these two pairs, which bounds the
half-edge count by twice the winged-edge count. -/
theorem pair_count_le (T : List TempHalfEdge)
    (hnd : (T.map pairOf).Nodup)
    (hnl : ∀ he ∈ T, he.origin ≠ he.target) :
    T.length ≤ 2 * ((T.map keyOf).toFinset).card ∧
    (T.length = 2 * ((T.map keyOf).toFinset).card ↔
      ∀ he ∈ T, ∃ he2 ∈ T, pairOf he2 = (he.target, he.origin)) := by
  classical
  set K := (T.map keyOf).toFinset with hK
  set P := (T.map pairOf).toFinset with hP
  set fib : ℕ × ℕ → Finset (ℕ × ℕ) :=
    fun k => {(k.1, k.2), (k.2, k.1)} with hfib
  have hkey_mem : ∀ k ∈ K, ∃ he ∈ T, keyOf he = k := by
    intro k hk
    obtain ⟨he, hhe, hkeq⟩ := List.mem_map.1 (List.mem_toFinset.1 hk)
    exact ⟨he, hhe, hkeq⟩
  have hklt : ∀ k ∈ K, k.1 < k.2 := by
    intro k hk
    obtain ⟨he, hhe, hkeq⟩ := hkey_mem k hk
    have hot := hnl he hhe
    rcases keyOf_eq_pair_cases he with ⟨h, he2⟩ | ⟨h, he2⟩
    · rw [← hkeq, he2]
      exact h
    · rw [← hkeq, he2]
      show he.target < he.origin
      omega
  have hpair_in_fib : ∀ he ∈ T, pairOf he ∈ fib (keyOf he) := by
    intro he hhe
    rcases keyOf_eq_pair_cases he with ⟨_, he2⟩ | ⟨_, he2⟩ <;>
      rw [he2] <;> simp [hfib, pairOf]
  have hrev_in_fib : ∀ he ∈ T, (he.target, he.origin) ∈ fib (keyOf he) := by
    intro he hhe
    rcases keyOf_eq_pair_cases he with ⟨_, he2⟩ | ⟨_, he2⟩ <;>
      rw [he2] <;> simp [hfib]
  have hKmem : ∀ he ∈ T, keyOf he ∈ K :=
    fun he hhe => List.mem_toFinset.2 (List.mem_map_of_mem keyOf hhe)
  have hfib_key : ∀ k ∈ K, ∀ p ∈ fib k, edgeKey p.1 p.2 = k := by
    intro k hk p hp
    have hlt := hklt k hk
    rcases Finset.mem_insert.1 hp with h | h
    · rw [h]
      show edgeKey k.1 k.2 = k
      rw [edgeKey_of_le _ _ (le_of_lt hlt)]
    · rw [Finset.mem_singleton.1 h]
      show edgeKey k.2 k.1 = k
      rw [edgeKey_comm, edgeKey_of_le _ _ (le_of_lt hlt)]
  have hfib_card : ∀ k ∈ K, (fib k).card = 2 := by
    intro k hk
    have hlt := hklt k hk
    have hne12 : (k.1, k.2) ∉ ({(k.2, k.1)} : Finset (ℕ × ℕ)) := by
      rw [Finset.mem_singleton]
      intro hcontra
      have h1 := congrArg Prod.fst hcontra
      simp only at h1
      omega
    show (insert (k.1, k.2) ({(k.2, k.1)} : Finset (ℕ × ℕ))).card = 2
    rw [Finset.card_insert_of_not_mem hne12, Finset.card_singleton]
  have hdisjoint : ∀ k1 ∈ K, ∀ k2 ∈ K, k1 ≠ k2 →
      Disjoint (fib k1) (fib k2) := by
    intro k1 h1 k2 h2 hne
    rw [Finset.disjoint_left]
    intro p hp1 hp2
    exact hne ((hfib_key k1 h1 p hp1).symm.trans (hfib_key k2 h2 p hp2))
  have hcard_biUnion : (K.biUnion fib).card = 2 * K.card := by
    rw [Finset.card_biUnion hdisjoint, Finset.sum_congr rfl hfib_card,
      Finset.sum_const, smul_eq_mul, Nat.mul_comm]
  have hsub : P ⊆ K.biUnion fib := by
    intro p hp
    obtain ⟨he, hhe, hpe⟩ := List.mem_map.1 (List.mem_toFinset.1 hp)
    rw [Finset.mem_biUnion]
    exact ⟨keyOf he, hKmem he hhe, hpe ▸ hpair_in_fib he hhe⟩
  have hlenP : P.card = T.length := by
    rw [hP, List.toFinset_card_of_nodup hnd, List.length_map]
  have hfib_elim : ∀ he ∈ T, ∀ p ∈ fib (keyOf he),
      p = pairOf he ∨ p = (he.target, he.origin) := by
    intro he hhe p hp
    rcases keyOf_eq_pair_cases he with ⟨_, he2⟩ | ⟨_, he2⟩ <;> rw [he2] at hp <;>
      rcases Finset.mem_insert.1 hp with h | h <;>
      simp only [Finset.mem_singleton] at h <;> subst h <;>
      simp [pairOf]
  constructor
  · calc T.length = P.card := hlenP.symm
      _ ≤ (K.biUnion fib).card := Finset.card_le_card hsub
      _ = 2 * K.card := hcard_biUnion
  · constructor
    · intro heq he hhe
      have hPeq : P = K.biUnion fib :=
        Finset.eq_of_subset_of_card_le hsub
          (by rw [hcard_biUnion, hlenP, ← heq])
      have hrev : (he.target, he.origin) ∈ P := by
        rw [hPeq, Finset.mem_biUnion]
        exact ⟨keyOf he, hKmem he hhe, hrev_in_fib he hhe⟩
      obtain ⟨he2, hhe2, hpe2⟩ := List.mem_map.1 (List.mem_toFinset.1 hrev)
      exact ⟨he2, hhe2, hpe2⟩
    · intro hall
      have hsub2 : K.biUnion fib ⊆ P := by
        intro p hp
        rw [Finset.mem_biUnion] at hp
        obtain ⟨k, hk, hpk⟩ := hp
        obtain ⟨he, hhe, hkeq⟩ := hkey_mem k hk
        rw [← hkeq] at hpk
        rcases hfib_elim he hhe p hpk with h | h
        · rw [h, hP]
          exact List.mem_toFinset.2 (List.mem_map_of_mem pairOf hhe)
        · obtain ⟨he2, hhe2, hpe2⟩ := hall he hhe
          rw [h, ← hpe2, hP]
          exact List.mem_toFinset.2 (List.mem_map_of_mem pairOf hhe2)
      have hPeq : P = K.biUnion fib := Finset.Subset.antisymm hsub hsub2
      rw [← hlenP, hPeq, hcard_biUnion]

theorem engineHalfEdges_twin_iff (positions : List ℚ)
    (rawIndices : Option (List ℕ)) (he : HalfEdgeData)
    (hm : he ∈ engineHalfEdges positions rawIndices) :
    he.twin ≠ none ↔ ∃ ht2 ∈ engineTempHEs positions rawIndices,
      pairOf ht2 = (he.targetVertex, he.originVertex) := by
  obtain ⟨k, ht, hk, hhe⟩ := engineHalfEdges_mem_elim positions rawIndices he hm
  subst hhe
  constructor
  · intro htw
    have htw2 : alookup (heLookupOf (engineTempHEs positions rawIndices))
        (ht.target, ht.origin) ≠ none := htw
    cases hc : alookup (heLookupOf (engineTempHEs positions rawIndices))
        (ht.target, ht.origin) with
    | none => exact absurd hc htw2
    | some i =>
        obtain ⟨ht2, hm2, hp2, _⟩ := heLookup_some _ _ _ hc
        exact ⟨ht2, hm2, hp2⟩
  · intro hex
    obtain ⟨ht2, hm2, hp2⟩ := hex
    obtain ⟨i, hi⟩ := heLookup_isSome _ ht2 hm2
    show alookup (heLookupOf (engineTempHEs positions rawIndices))
        (ht.target, ht.origin) ≠ none
    have hpp : (ht2.origin, ht2.target) = (ht.target, ht.origin) := hp2
    rw [← hpp, hi]
    exact Option.noConfusion

/-- **C5** (amended): counting relation between half-edges and winged
edges.  In the spec's stated direction (#wingedEdges ≤ #halfEdges / 2) the
claim is false — a single boundary triangle already violates it — so the
amended claim bounds the half-edges instead: for inputs with pairwise
distinct directed pairs and no degenerate self-loops,
`#halfEdges ≤ 2 * #wingedEdges`, with equality iff every half-edge has a
twin (no boundary edges). -/
theorem c5_winged_edge_count (positions : List ℚ)
    (rawIndices : Option (List ℕ))
    (hnd : ((analyzeGeometry positions rawIndices).halfEdges.map hePairOf).Nodup)
    (hnl : ∀ he ∈ (analyzeGeometry positions rawIndices).halfEdges,
      he.originVertex ≠ he.targetVertex) :
    (analyzeGeometry positions rawIndices).halfEdges.length ≤
      2 * (analyzeGeometry positions rawIndices).edges.length ∧
    ((analyzeGeometry positions rawIndices).halfEdges.length =
        2 * (analyzeGeometry positions rawIndices).edges.length ↔
      ∀ he ∈ (analyzeGeometry positions rawIndices).halfEdges,
        he.twin ≠ none) := by
  rw [analyzeGeometry_halfEdges] at hnd hnl ⊢
  rw [analyzeGeometry_edges]
  have hnd2 : ((engineTempHEs positions rawIndices).map pairOf).Nodup := by
    rw [← engineHalfEdges_pairs]
    exact hnd
  have hnl2 : ∀ ht ∈ engineTempHEs positions rawIndices,
      ht.origin ≠ ht.target := by
    intro ht hht
    obtain ⟨he2, hm2, e1, e2, _⟩ :=
      engineTempHEs_to_halfEdges positions rawIndices ht hht
    have h := hnl he2 hm2
    rw [e1, e2] at h
    exact h
  obtain ⟨hle, hiff⟩ := pair_count_le _ hnd2 hnl2
  have hlens := engineHalfEdges_length positions rawIndices
  have hedge := engineEdges_length positions rawIndices
  constructor
  · rw [hlens, hedge]
    exact hle
  · rw [hlens, hedge, hiff]
    constructor
    · intro hall he hm
      obtain ⟨k, ht, hk, hhe⟩ :=
        engineHalfEdges_mem_elim positions rawIndices he hm
      obtain ⟨ht2, hm2, hp2⟩ := hall ht (List.get?_mem hk)
      rw [engineHalfEdges_twin_iff positions rawIndices he hm]
      refine ⟨ht2, hm2, ?_⟩
      rw [hp2, hhe]
      rfl
    · intro hall ht hht
      obtain ⟨he2, hm2, e1, e2, _⟩ :=
        engineTempHEs_to_halfEdges positions rawIndices ht hht
      have htw := hall he2 hm2
      rw [engineHalfEdges_twin_iff positions rawIndices he2 hm2] at htw
      obtain ⟨ht2, hm2', hp2⟩ := htw
      refine ⟨ht2, hm2', ?_⟩
      rw [hp2, e1, e2]

/-! ### Counterexamples for the corrected claims -/

/-- Counterexample to C2 as stated: in the non-manifold mesh `nmIdx` the
directed pair `0→1` occurs twice, the lookup keeps only the later one, and
half-edge 0 ends with a twin whose own twin is not 0. -/
theorem c2_twin_symmetry_counterexample :
    ∃ he ∈ (analyzeGeometry nmPos (some nmIdx)).halfEdges,
      ∃ he2 ∈ (analyzeGeometry nmPos (some nmIdx)).halfEdges,
        he.twin = some he2.id ∧
        (analyzeGeometry nmPos (some nmIdx)).halfEdges.get? he2.id = some he2 ∧
        he2.twin ≠ some he.id := by decide

/-- Counterexample to C5 as stated: a single triangle has 3 winged edges
and 3 half-edges, violating #wingedEdges ≤ #halfEdges / 2. -/
theorem c5_winged_edge_count_counterexample :
    ¬(2 * (analyzeGeometry triPos (some triIdx)).edges.length ≤
      (analyzeGeometry triPos (some triIdx)).halfEdges.length) := by decide

/-- Counterexample to C6 as stated: the degenerate face `(0, 0, 1)`
produces a self-loop winged edge with `startVertex = endVertex = 0`, not
`startVertex < endVertex`. -/
theorem c6_canonical_counterexample :
    ∃ we ∈ (analyzeGeometry degPos (some degIdx)).edges,
      ¬(we.startVertex < we.endVertex) := by decide

/-- Counterexample to C7 as stated: the self-loop winged edge of the
degenerate face is a boundary edge whose sole half-edge runs
`startVertex → endVertex`, yet its `succRight` is filled, not left unset. -/
theorem c7_boundary_counterexample :
    ∃ we ∈ (analyzeGeometry degPos (some degIdx)).edges,
      ((analyzeGeometry degPos (some degIdx)).halfEdges.filter
        (fun he => decide (edgeKey he.originVertex he.targetVertex =
          edgeKey we.startVertex we.endVertex))).map hePairOf =
        [(we.startVertex, we.endVertex)] ∧
      we.succRight ≠ -1 := by decide

/-- Counterexample to C10 as stated: with two degenerate faces both
producing the pair `0→0`, the earlier self-loop half-edge gets the later
one's id as twin, not its own id. -/
theorem c10_self_twin_counterexample :
    ∃ he ∈ (analyzeGeometry deg2Pos (some deg2Idx)).halfEdges,
      he.originVertex = he.targetVertex ∧ he.twin ≠ some he.id := by decide

/-! ### Witnesses: the claim theorems applied at concrete inputs -/

/-- Witness for C1 on the unindexed duplicate-position buffer. -/
theorem c1_dedup_correct_witness :
    (processedIndices dupPos none).getD 0 0 =
        (processedIndices dupPos none).getD 2 0 ↔
      posKey dupPos ((pIdxList dupPos none).getD 0 0) =
        posKey dupPos ((pIdxList dupPos none).getD 2 0) :=
  c1_dedup_correct dupPos none 0 2 (by decide) (by decide)

/-- Witness for C2 on the shared-edge two-triangle mesh: half-edge 1 has
twin 5, and half-edge 5's twin is 1. -/
theorem c2_twin_symmetry_witness :
    ∃ he2, (analyzeGeometry quadPos (some quadIdx)).halfEdges.get? 5 =
        some he2 ∧ he2.twin = some quadHE1.id :=
  c2_twin_symmetry quadPos (some quadIdx) (by decide) quadHE1 (by decide)
    5 rfl

/-- Witness for C3 at the first half-edge of the single triangle. -/
theorem c3_next_prev_closure_witness :
    triHE0.id = 0 ∧
    ∃ heN heP heNN,
      (analyzeGeometry triPos (some triIdx)).halfEdges.get? triHE0.next =
        some heN ∧
      (analyzeGeometry triPos (some triIdx)).halfEdges.get? triHE0.prev =
        some heP ∧
      heN.face = triHE0.face ∧ heP.face = triHE0.face ∧
      heN.prev = 0 ∧ heP.next = 0 ∧
      (analyzeGeometry triPos (some triIdx)).halfEdges.get? heN.next =
        some heNN ∧
      heNN.next = 0 :=
  c3_next_prev_closure triPos (some triIdx) 0 triHE0 (by decide)

/-- Witness for C4 at the boundary edge `{0,1}` of the single triangle. -/
theorem c4_side_faces_witness :
    (triWE0.faceLeft ≠ -1 →
      ∃ he ∈ (analyzeGeometry triPos (some triIdx)).halfEdges,
        he.originVertex = triWE0.startVertex ∧
        he.targetVertex = triWE0.endVertex ∧
        (he.face : ℤ) = triWE0.faceLeft) ∧
    (triWE0.faceRight ≠ -1 →
      ∃ he ∈ (analyzeGeometry triPos (some triIdx)).halfEdges,
        he.originVertex = triWE0.endVertex ∧
        he.targetVertex = triWE0.startVertex ∧
        (he.face : ℤ) = triWE0.faceRight) :=
  c4_side_faces triPos (some triIdx) triWE0 (by decide)

/-- Witness for the amended C5 on the single triangle: 3 ≤ 2·3, and the
equality clause is an equivalence of two false sides. -/
theorem c5_winged_edge_count_witness :
    (analyzeGeometry triPos (some triIdx)).halfEdges.length ≤
      2 * (analyzeGeometry triPos (some triIdx)).edges.length ∧
    ((analyzeGeometry triPos (some triIdx)).halfEdges.length =
        2 * (analyzeGeometry triPos (some triIdx)).edges.length ↔
      ∀ he ∈ (analyzeGeometry triPos (some triIdx)).halfEdges,
        he.twin ≠ none) :=
  c5_winged_edge_count triPos (some triIdx) (by decide) (by decide)

/-- Witness for the amended C6 at the boundary edge `{0,1}`. -/
theorem c6_canonical_le_witness : triWE0.startVertex ≤ triWE0.endVertex :=
  c6_canonical_le triPos (some triIdx) triWE0 (by decide)

/-- Witness for the amended C7 at the boundary edge `{0,1}` of the single
triangle. -/
theorem c7_boundary_none_witness :
    (((analyzeGeometry triPos (some triIdx)).halfEdges.filter
        (fun he => decide (edgeKey he.originVertex he.targetVertex =
          edgeKey triWE0.startVertex triWE0.endVertex))).map hePairOf =
        [(triWE0.startVertex, triWE0.endVertex)] →
      triWE0.faceRight = -1 ∧ triWE0.predRight = -1 ∧
        triWE0.succRight = -1) ∧
    (((analyzeGeometry triPos (some triIdx)).halfEdges.filter
        (fun he => decide (edgeKey he.originVertex he.targetVertex =
          edgeKey triWE0.startVertex triWE0.endVertex))).map hePairOf =
        [(triWE0.endVertex, triWE0.startVertex)] →
      triWE0.faceLeft = -1 ∧ triWE0.predLeft = -1 ∧
        triWE0.succLeft = -1) :=
  c7_boundary_none triPos (some triIdx) triWE0 (by decide) (by decide)

/-- Witness for C8 at the boundary edge `{0,1}`. -/
theorem c8_createdStep_absent_witness : triWE0.createdStep = none :=
  c8_createdStep_absent triPos (some triIdx) triWE0 (by decide)

/-- Witness for C9 at the single-triangle input. -/
theorem c9_deterministic_witness :
    analyzeGeometry triPos (some triIdx) =
      analyzeGeometry triPos (some triIdx) :=
  c9_deterministic triPos triPos (some triIdx) (some triIdx) rfl rfl

/-- Witness for the amended C10 at the unique self-loop of the degenerate
face `(0, 0, 1)`: half-edge 0 is the last `0→0` carrier, so its twin is
its own id. -/
theorem c10_self_twin_witness :
    ∃ t he2,
      degHE0.twin = some t ∧
      (analyzeGeometry degPos (some degIdx)).halfEdges.get? t = some he2 ∧
      hePairOf he2 = hePairOf degHE0 ∧
      (∀ j he3,
        (analyzeGeometry degPos (some degIdx)).halfEdges.get? j = some he3 →
        hePairOf he3 = hePairOf degHE0 → j ≤ t) ∧
      (degHE0.twin = some degHE0.id ↔
        ∀ j he3,
          (analyzeGeometry degPos (some degIdx)).halfEdges.get? j = some he3 →
          hePairOf he3 = hePairOf degHE0 → j ≤ 0) :=
  c10_self_twin degPos (some degIdx) 0 degHE0 (by decide) rfl

end GeoStruct
